import Mathlib

/-!
Verification development for the `sf` file finder.

The subject is the ignore/visibility filter of `src/filter.rs` and the
query planner of `src/query.rs`.  Paths are embedded as lists of
components, each component being the raw byte sequence of one filename
(bytes as `Nat`, only compared for equality).  Compiled ignore matchers
(the external `ignore` crate's `Gitignore` values) are embedded
abstractly as functions from a path and a directory bit to an optional
decision; the environment `Env` records, for every directory, the result
of probing and parsing the corresponding ignore file, mirroring what the
filesystem-dependent code in `filter.rs` computes.

The stateful cache-filling code of `Filter` is embedded twice: once as
pure (cache-free) functions giving the intended denotation, and once as
explicit state-passing functions (`FilterState`) that mirror the Rust
control flow including cache reads and writes.  Equivalence theorems
connect the two.
-/

/-- One path component: the raw bytes of a single filename. -/
abbrev FName := List Nat

/-- An absolute path: its component list from the filesystem root.
`[]` is the filesystem root `/`. -/
abbrev FsPath := List FName

/-- The decision of one ignore matcher, `IgnoreDecision` in `filter.rs`:
`Ignore` and `Whitelist`; absence of a decision is the surrounding
`Option`. -/
inductive IgnoreDecision
  | Ignore
  | Whitelist
deriving DecidableEq

/-- `IgnoreDecision::include`: only a whitelist decision yields
inclusion. -/
def IgnoreDecision.isInclude : IgnoreDecision → Bool
  | .Whitelist => true
  | .Ignore => false

/-- A compiled ignore matcher: given a candidate path and whether it is a
directory, return `some` decision or abstain (`Gitignore::matched`
composed with `match_to_decision`). -/
abbrev IgMatcher := FsPath → Bool → Option IgnoreDecision

/-- `FilterConfig` of `filter.rs`. -/
structure FilterConfig where
  cwd : FsPath
  search_base : FsPath
  include_hidden : Bool
  ignore_enabled : Bool

/-- The filesystem-and-globals environment read by the filter.
`statIsDir` is `fs::symlink_metadata(..).map(|m| m.is_dir())` with `none`
for a failed stat.  `isFile` is `Path::is_file`.  `parseIgnore dir fname`
is the result of `GitignoreBuilder::new(dir)` + `add(dir/fname)` +
`build().ok()` (so `none` models a read or parse failure).
`parseInfoExclude repo` likewise models building the matcher for
`repo/.git/info/exclude`.  The two globals mirror the fields of
`Filter`. -/
structure Env where
  statIsDir : FsPath → Option Bool
  isFile : FsPath → Bool
  parseIgnore : FsPath → FName → Option IgMatcher
  parseInfoExclude : FsPath → Option IgMatcher
  globalGitignore : IgMatcher
  globalFdIgnore : Option IgMatcher

/-- Bytes of `".git"`. -/
def dotGitName : FName := [46, 103, 105, 116]

/-- Bytes of `"HEAD"`. -/
def headName : FName := [72, 69, 65, 68]

/-- Bytes of `"info"`. -/
def infoName : FName := [105, 110, 102, 111]

/-- Bytes of `"exclude"`. -/
def excludeName : FName := [101, 120, 99, 108, 117, 100, 101]

/-- Bytes of `".fdignore"`. -/
def fdignoreName : FName := [46, 102, 100, 105, 103, 110, 111, 114, 101]

/-- Bytes of `".ignore"`. -/
def dotIgnoreName : FName := [46, 105, 103, 110, 111, 114, 101]

/-- Bytes of `".gitignore"`. -/
def gitignoreName : FName := [46, 103, 105, 116, 105, 103, 110, 111, 114, 101]

/-- The relative path `".git/HEAD"` appended to a directory when probing
for a repository root. -/
def gitHeadTail : FsPath := [dotGitName, headName]

/-- `Path::parent().unwrap_or(path)`: the containing directory, with the
filesystem root its own parent. -/
def parentOr (p : FsPath) : FsPath := if p = [] then [] else p.dropLast

/-- `Path::starts_with` on components: `isBasePrefixOf base p` is true
iff `base` is a component-wise prefix of `p`. -/
def isBasePrefixOf : FsPath → FsPath → Bool
  | [], _ => true
  | _ :: _, [] => false
  | b :: bs, c :: cs => decide (b = c) && isBasePrefixOf bs cs

theorem isBasePrefixOf_iff (b p : FsPath) :
    isBasePrefixOf b p = true ↔ ∃ t, p = b ++ t := by
  induction b generalizing p with
  | nil => simp [isBasePrefixOf]
  | cons x xs ih =>
    cases p with
    | nil => simp [isBasePrefixOf]
    | cons y ys =>
      simp only [isBasePrefixOf, Bool.and_eq_true, decide_eq_true_eq, ih, List.cons_append,
        List.cons.injEq]
      constructor
      · rintro ⟨rfl, t, rfl⟩
        exact ⟨t, rfl, rfl⟩
      · rintro ⟨t, rfl, rfl⟩
        exact ⟨rfl, t, rfl⟩

theorem isBasePrefixOf_refl (p : FsPath) : isBasePrefixOf p p = true := by
  rw [isBasePrefixOf_iff]
  exact ⟨[], by simp⟩

theorem isBasePrefixOf_take {b p : FsPath} (h : isBasePrefixOf b p = true) :
    p.take b.length = b := by
  obtain ⟨t, rfl⟩ := (isBasePrefixOf_iff b p).1 h
  simp

theorem isBasePrefixOf_drop {b p : FsPath} (h : isBasePrefixOf b p = true) :
    p.drop b.length = p.drop b.length ∧ p = b ++ p.drop b.length := by
  obtain ⟨t, rfl⟩ := (isBasePrefixOf_iff b p).1 h
  simp

theorem isBasePrefixOf_length {b p : FsPath} (h : isBasePrefixOf b p = true) :
    b.length ≤ p.length := by
  obtain ⟨t, rfl⟩ := (isBasePrefixOf_iff b p).1 h
  simp

/-! ## Hidden-path predicate (`is_hidden_component`, `is_hidden_path`,
`is_hidden_under_base` in `filter.rs`) -/

/-- `is_hidden_component`: a component is hidden iff its first byte is
`0x2E` (`.`) and it is not literally `"."` or `".."`. -/
def is_hidden_component (c : FName) : Bool :=
  if c = [46] then false
  else if c = [46, 46] then false
  else
    match c.head? with
    | some b => decide (b = 46)
    | none => false

/-- `is_hidden_path`: some component of the path is hidden. -/
def is_hidden_path (p : FsPath) : Bool := p.any is_hidden_component

/-- `is_hidden_under_base`: strip the base prefix and test the remaining
components; if the path does not start with the base, defensively test
every component. -/
def is_hidden_under_base (p base : FsPath) : Bool :=
  if isBasePrefixOf base p then (p.drop base.length).any is_hidden_component
  else is_hidden_path p

/-- Restatement of the spec's wording for a hidden component. -/
def hiddenComponentSpec (c : FName) : Prop :=
  c.head? = some 46 ∧ c ≠ [46] ∧ c ≠ [46, 46]

/-- Restatement of the spec's wording for the hidden predicate. -/
def hiddenUnderBaseSpec (p base : FsPath) : Prop :=
  if isBasePrefixOf base p then ∃ c ∈ p.drop base.length, hiddenComponentSpec c
  else ∃ c ∈ p, hiddenComponentSpec c

theorem is_hidden_component_iff (c : FName) :
    is_hidden_component c = true ↔ hiddenComponentSpec c := by
  unfold is_hidden_component hiddenComponentSpec
  cases c with
  | nil => simp
  | cons b rest =>
    by_cases h1 : (b :: rest : FName) = [46] <;> by_cases h2 : (b :: rest : FName) = [46, 46] <;>
      (simp_all; try tauto)

/-! ## Query planner (`query.rs`) -/

/-- One argument passed to the external index binary: either a literal
string or a path rendered as an OS string. -/
inductive MdArg
  | lit (s : List Char)
  | ofPath (p : FsPath)
deriving DecidableEq

/-- `RustMatcher` of `query.rs`: the post-filter applied on the Rust side
when the index query mode is looser than the requested semantics. -/
inductive RustMatcher
  | caseSensitiveSubstring (needle : List Char)
deriving DecidableEq

/-- `QueryPlan` of `query.rs`. -/
structure QueryPlan where
  args : List MdArg
  rust_matcher : Option RustMatcher
deriving DecidableEq

/-- `is_glob`: the pattern contains `*` or `?`. -/
def is_glob (p : List Char) : Bool := p.contains '*' || p.contains '?'

/-- `has_uppercase`: some character of the pattern is uppercase. -/
def has_uppercase (p : List Char) : Bool := p.any Char.isUpper

/-- One pass of `str::replace` with a single-character pattern. -/
def replaceChar (a : Char) (rep : List Char) (s : List Char) : List Char :=
  s.flatMap (fun c => if c = a then rep else [c])

/-- `escape_query_string`: escape backslashes, then double quotes. -/
def escape_query_string (s : List Char) : List Char :=
  replaceChar '"' ['\\', '"'] (replaceChar '\\' ['\\', '\\'] s)

/-- The fixed head of every constructed index query string. -/
def queryHeader : List Char := "kMDItemFSName == \"".data

/-- `build_query`: construct the index query string; the trailing `c`
after the closing quote is the case-insensitive modifier. -/
def build_query (pattern : Option (List Char)) : List Char :=
  let pat : List Char :=
    match pattern with
    | none => ['*']
    | some p => if is_glob p then p else '*' :: (p ++ ['*'])
  let escaped := escape_query_string pat
  let ci : Bool :=
    match pattern with
    | some p => !has_uppercase p
    | none => false
  if ci then queryHeader ++ escaped ++ ['"', 'c']
  else queryHeader ++ escaped ++ ['"']

/-- Bytes of `"var"`. -/
def varName : FName := [118, 97, 114]

/-- Bytes of `"folders"`. -/
def foldersName : FName := [102, 111, 108, 100, 101, 114, 115]

/-- Bytes of `"private"`. -/
def privateName : FName := [112, 114, 105, 118, 97, 116, 101]

/-- Bytes of `"tmp"`. -/
def tmpName : FName := [116, 109, 112]

/-- `should_avoid_name_fast_path`: ephemeral system locations where the
`-name` index mode is unreliable. -/
def should_avoid_name_fast_path (base : FsPath) : Bool :=
  isBasePrefixOf [varName, foldersName] base ||
  isBasePrefixOf [privateName, varName, foldersName] base ||
  isBasePrefixOf [tmpName] base ||
  isBasePrefixOf [privateName, tmpName] base

/-- `build_mdfind_plan`: choose between a predicate query and the `-name`
fast path, attaching a Rust-side case-sensitive matcher when needed. -/
def build_mdfind_plan (base : FsPath) (pattern : Option (List Char)) : QueryPlan :=
  let args0 : List MdArg := [.lit "-0".data, .lit "-onlyin".data, .ofPath base]
  match pattern with
  | none => ⟨args0 ++ [.lit (build_query none)], none⟩
  | some p =>
    if is_glob p then ⟨args0 ++ [.lit (build_query (some p))], none⟩
    else if should_avoid_name_fast_path base then
      ⟨args0 ++ [.lit (build_query (some p))], none⟩
    else
      ⟨args0 ++ [.lit "-name".data, .lit p],
        if has_uppercase p then some (.caseSensitiveSubstring p) else none⟩

/-! ## Ancestor chains

The Rust loops `std::iter::successors(Some(start), |p| p.parent())`
iterate a path and all of its ancestors up to the filesystem root.
`ancestorChain` is that iteration order as a list. -/

/-- The path and all its ancestors, leaf first, ending at the filesystem
root `[]`. -/
def ancestorChain (p : FsPath) : List FsPath :=
  ((List.range (p.length + 1)).reverse).map (fun k => p.take k)

theorem ancestorChain_nil : ancestorChain ([] : FsPath) = [[]] := rfl

theorem take_dropLast_eq {α : Type} (p : List α) (k : ℕ) (h : k ≤ p.length - 1) :
    p.take k = p.dropLast.take k := by
  rw [List.dropLast_eq_take, List.take_take, Nat.min_eq_left h]

theorem ancestorChain_cons (p : FsPath) (h : p ≠ []) :
    ancestorChain p = p :: ancestorChain p.dropLast := by
  have hl : p.length = p.dropLast.length + 1 := by
    have := List.length_dropLast p
    have hp : 0 < p.length := List.length_pos.mpr h
    omega
  unfold ancestorChain
  rw [hl, List.range_succ, List.reverse_append]
  simp only [List.reverse_cons, List.reverse_nil, List.nil_append, List.singleton_append,
    List.map_cons]
  congr 1
  · rw [← hl, List.take_length]
  · apply List.map_congr_left
    intro k hk
    rw [List.mem_reverse, List.mem_range] at hk
    exact take_dropLast_eq p k (by have := List.length_dropLast p; omega)

theorem ancestorChain_ne_nil (p : FsPath) : ancestorChain p ≠ [] := by
  cases hp : p with
  | nil => simp [ancestorChain_nil]
  | cons a as =>
    rw [← hp, ancestorChain_cons p (by simp [hp])]
    simp

/-! ## Repository-root locator (`Filter::repo_root_for_dir`), pure
denotation -/

/-- The nearest enclosing directory whose `.git/HEAD` is a regular file:
the first hit while walking the ancestor chain from `dir` toward the
filesystem root. -/
def repoRootPure (env : Env) (dir : FsPath) : Option FsPath :=
  (ancestorChain dir).find? (fun cur => env.isFile (cur ++ gitHeadTail))

theorem repoRootPure_eq (env : Env) (dir : FsPath) :
    repoRootPure env dir =
      if env.isFile (dir ++ gitHeadTail) then some dir
      else if dir = [] then none else repoRootPure env dir.dropLast := by
  by_cases hd : dir = []
  · subst hd
    simp only [repoRootPure, ancestorChain_nil, List.find?]
    split <;> simp_all
  · rw [repoRootPure, ancestorChain_cons dir hd, List.find?_cons]
    split <;> simp_all [repoRootPure]

/-! ## Ignore-file cache, pure denotation (`get_or_build_ignore_file`,
`build_info_exclude_matcher`) -/

/-- The matcher a single probe of `dir/fname` produces: `none` when the
file is absent or fails to read or parse. -/
def buildIgnoreMatcher (env : Env) (dir : FsPath) (fname : FName) : Option IgMatcher :=
  if env.isFile (dir ++ [fname]) then env.parseIgnore dir fname else none

/-- The matcher that abstains on every input (`Gitignore::empty`). -/
def emptyMatcher : IgMatcher := fun _ _ => none

/-- `build_info_exclude_matcher`: the info-exclude matcher of a
repository root, degrading to the empty matcher when the file is absent
or fails to build. -/
def buildInfoExclude (env : Env) (repo : FsPath) : IgMatcher :=
  if env.isFile (repo ++ [dotGitName, infoName, excludeName]) then
    match env.parseInfoExclude repo with
    | some m => m
    | none => emptyMatcher
  else emptyMatcher

/-- `IgnoreKind` of `filter.rs`: which ancestor-walked ignore file a
lookup concerns. -/
inductive IgnoreKind
  | FdIgnore
  | DotIgnore
deriving DecidableEq

/-- The ignore-file basename of an `IgnoreKind`. -/
def ignoreFileName : IgnoreKind → FName
  | .FdIgnore => fdignoreName
  | .DotIgnore => dotIgnoreName

/-- Pure denotation of `fdignore_in_dir` / `ignore_in_dir`. -/
def ignoreFilePure (env : Env) (kind : IgnoreKind) (dir : FsPath) : Option IgMatcher :=
  buildIgnoreMatcher env dir (ignoreFileName kind)

/-- Pure denotation of `gitignore_in_dir`. -/
def gitignorePure (env : Env) (dir : FsPath) : Option IgMatcher :=
  buildIgnoreMatcher env dir gitignoreName

/-! ## Ignore composition, pure denotation (`Filter::is_entry_included`
and its layers) -/

/-- The loop body of `match_from_ancestors`, over an explicit directory
list: at each directory consult the kind's ignore matcher and return its
first decision. -/
def matchAncestorsList (env : Env) (kind : IgnoreKind) (path : FsPath) (isDir : Bool) :
    List FsPath → Option IgnoreDecision
  | [] => none
  | cur :: rest =>
    match (ignoreFilePure env kind cur).bind (fun m => m path isDir) with
    | some dec => some dec
    | none => matchAncestorsList env kind path isDir rest

/-- `match_fdignore`: tool-specific ignore files, all ancestors of the
start directory up to the filesystem root. -/
def matchFdignorePure (env : Env) (path : FsPath) (isDir : Bool) (start : FsPath) :
    Option IgnoreDecision :=
  matchAncestorsList env .FdIgnore path isDir (ancestorChain start)

/-- `match_dot_ignore`: neutral ignore files, all ancestors of the start
directory up to the filesystem root. -/
def matchDotIgnorePure (env : Env) (path : FsPath) (isDir : Bool) (start : FsPath) :
    Option IgnoreDecision :=
  matchAncestorsList env .DotIgnore path isDir (ancestorChain start)

/-- The closest-directory-wins `.gitignore` walk of `match_git_ignores`,
over an explicit directory list: stop after evaluating the repository
root. -/
def gitWalkList (env : Env) (path : FsPath) (isDir : Bool) (root : FsPath) :
    List FsPath → Option IgnoreDecision
  | [] => none
  | cur :: rest =>
    match (gitignorePure env cur).bind (fun m => m path isDir) with
    | some dec => some dec
    | none => if cur = root then none else gitWalkList env path isDir root rest

/-- The body of `match_git_ignores` once a repository root is known:
local `.gitignore` files (closest wins, up to the repository root), then
the repository's info-exclude, then the global VCS ignore. -/
def gitLayersWithRoot (env : Env) (path : FsPath) (isDir : Bool) (parentDir root : FsPath) :
    Option IgnoreDecision :=
  match gitWalkList env path isDir root (ancestorChain parentDir) with
  | some dec => some dec
  | none =>
    match buildInfoExclude env root path isDir with
    | some dec => some dec
    | none =>
      match env.globalGitignore path isDir with
      | some dec => some dec
      | none => none

/-- `match_git_ignores`: the VCS layers, gated on a repository root for
the candidate's parent. -/
def matchGitIgnoresPure (env : Env) (path : FsPath) (isDir : Bool) (parentDir : FsPath) :
    Option IgnoreDecision :=
  match repoRootPure env parentDir with
  | none => none
  | some root => gitLayersWithRoot env path isDir parentDir root

/-- `match_global_fd_ignore`. -/
def matchGlobalFdPure (env : Env) (path : FsPath) (isDir : Bool) : Option IgnoreDecision :=
  env.globalFdIgnore.bind (fun m => m path isDir)

/-- `Filter::is_entry_included`: the layered composition; the first
non-abstaining layer decides, and with no decision the entry is
included. -/
def isEntryIncludedPure (env : Env) (path : FsPath) (isDir : Bool) (parentDir : FsPath) : Bool :=
  match matchFdignorePure env path isDir parentDir with
  | some dec => dec.isInclude
  | none =>
    match matchDotIgnorePure env path isDir parentDir with
    | some dec => dec.isInclude
    | none =>
      match matchGitIgnoresPure env path isDir parentDir with
      | some dec => dec.isInclude
      | none =>
        match matchGlobalFdPure env path isDir with
        | some dec => dec.isInclude
        | none => true

/-! ## Decision engine, pure denotation (`Filter::should_include`,
`Filter::is_walkable_to`, `Filter::is_dir_walkable_uncached`) -/

/-- `Filter::is_dir_walkable_uncached`: the uncached walkability of one
directory. -/
def isDirWalkablePure (env : Env) (cfg : FilterConfig) (dir : FsPath) : Bool :=
  if !cfg.include_hidden && is_hidden_under_base dir cfg.search_base then false
  else if !cfg.ignore_enabled then true
  else isEntryIncludedPure env dir true (parentOr dir)

/-- The directories a recursive walker must enter to reach `container`
from the search base: every ancestor of `container` at or below the
base, root-most first. -/
def walkChainDirs (base container : FsPath) : List FsPath :=
  (((List.range (container.length + 1)).filter (fun k => decide (base.length ≤ k))).map
    (fun k => container.take k))

theorem mem_walkChainDirs {base container d : FsPath} :
    d ∈ walkChainDirs base container ↔
      ∃ k, base.length ≤ k ∧ k ≤ container.length ∧ d = container.take k := by
  simp only [walkChainDirs, List.mem_map, List.mem_filter, List.mem_range, Nat.lt_succ_iff,
    decide_eq_true_eq]
  constructor
  · rintro ⟨k, ⟨hk1, hk2⟩, rfl⟩
    exact ⟨k, hk2, hk1, rfl⟩
  · rintro ⟨k, hk1, hk2, rfl⟩
    exact ⟨k, ⟨hk2, hk1⟩, rfl⟩

/-- Pure denotation of the walkability scan: every directory between the
search base and `container` is walkable. -/
def chainWalkablePure (env : Env) (cfg : FilterConfig) (container : FsPath) : Bool :=
  (walkChainDirs cfg.search_base container).all (fun d => isDirWalkablePure env cfg d)

theorem chainWalkable_iff {env : Env} {cfg : FilterConfig} {container : FsPath} :
    chainWalkablePure env cfg container = true ↔
      ∀ k, cfg.search_base.length ≤ k → k ≤ container.length →
        isDirWalkablePure env cfg (container.take k) = true := by
  simp only [chainWalkablePure, List.all_eq_true]
  constructor
  · intro h k hk1 hk2
    exact h _ (mem_walkChainDirs.mpr ⟨k, hk1, hk2, rfl⟩)
  · rintro h d hd
    obtain ⟨k, hk1, hk2, rfl⟩ := mem_walkChainDirs.mp hd
    exact h k hk1 hk2

/-- `Filter::is_walkable_to`, pure denotation: candidates outside the
search base are defensively walkable; otherwise every ancestor between
the base and the containing directory must be walkable. -/
def isWalkableToPure (env : Env) (cfg : FilterConfig) (path : FsPath) (isDir : Bool) : Bool :=
  let container := if isDir then path else parentOr path
  if isBasePrefixOf cfg.search_base container then chainWalkablePure env cfg container
  else true

/-- `Filter::should_include` with the directory bit supplied explicitly
(what the engine would decide if the stat of `path` yielded `isDir`). -/
def shouldIncludeWith (env : Env) (cfg : FilterConfig) (path : FsPath) (isDir : Bool) : Bool :=
  if !cfg.include_hidden && is_hidden_under_base path cfg.search_base then false
  else if !isWalkableToPure env cfg path isDir then false
  else if !cfg.ignore_enabled then true
  else isEntryIncludedPure env path isDir (parentOr path)

/-- `Filter::should_include`, pure denotation: the directory bit comes
from `symlink_metadata`, with a failed stat treated as "not a
directory". -/
def shouldIncludePure (env : Env) (cfg : FilterConfig) (path : FsPath) : Bool :=
  shouldIncludeWith env cfg path ((env.statIsDir path).getD false)

/-! ## The six-layer view of the ignore composition (spec §4.4.2) -/

/-- Layer 3 of the spec's precedence table: VCS-local ignore files,
gated on a repository root for the candidate's parent, closest directory
first, stopping at the repository root. -/
def layerGitLocal (env : Env) (path : FsPath) (isDir : Bool) (parentDir : FsPath) :
    Option IgnoreDecision :=
  match repoRootPure env parentDir with
  | none => none
  | some root => gitWalkList env path isDir root (ancestorChain parentDir)

/-- Layer 4 of the spec's precedence table: the repository's
`.git/info/exclude`, only inside a repository. -/
def layerInfoExclude (env : Env) (path : FsPath) (isDir : Bool) (parentDir : FsPath) :
    Option IgnoreDecision :=
  match repoRootPure env parentDir with
  | none => none
  | some root => buildInfoExclude env root path isDir

/-- Layer 5 of the spec's precedence table: the global VCS-style ignore,
only inside a repository. -/
def layerGlobalGit (env : Env) (path : FsPath) (isDir : Bool) (parentDir : FsPath) :
    Option IgnoreDecision :=
  match repoRootPure env parentDir with
  | none => none
  | some _ => env.globalGitignore path isDir

/-- The spec's composition rule: the first non-abstaining layer decides
(`Whitelist` includes, `Ignore` excludes), and if every layer abstains
the entry is included. -/
def composeLayers : List (Option IgnoreDecision) → Bool
  | [] => true
  | some d :: _ => d.isInclude
  | none :: rest => composeLayers rest

theorem matchGitIgnores_layers (env : Env) (path : FsPath) (isDir : Bool) (parentDir : FsPath) :
    matchGitIgnoresPure env path isDir parentDir =
      ((layerGitLocal env path isDir parentDir).or
        ((layerInfoExclude env path isDir parentDir).or
          (layerGlobalGit env path isDir parentDir))) := by
  unfold matchGitIgnoresPure layerGitLocal layerInfoExclude layerGlobalGit
  cases hr : repoRootPure env parentDir with
  | none => rfl
  | some root =>
    show gitLayersWithRoot env path isDir parentDir root =
      (gitWalkList env path isDir root (ancestorChain parentDir)).or
        ((buildInfoExclude env root path isDir).or (env.globalGitignore path isDir))
    unfold gitLayersWithRoot
    cases gitWalkList env path isDir root (ancestorChain parentDir) with
    | some dec => rfl
    | none =>
      cases buildInfoExclude env root path isDir with
      | some dec => rfl
      | none => cases env.globalGitignore path isDir <;> rfl

/-- The central decomposition: `is_entry_included` equals the spec's
six-layer first-decision composition. -/
theorem isEntryIncluded_layers (env : Env) (path : FsPath) (isDir : Bool) (parentDir : FsPath) :
    isEntryIncludedPure env path isDir parentDir =
      composeLayers [matchFdignorePure env path isDir parentDir,
        matchDotIgnorePure env path isDir parentDir,
        layerGitLocal env path isDir parentDir,
        layerInfoExclude env path isDir parentDir,
        layerGlobalGit env path isDir parentDir,
        matchGlobalFdPure env path isDir] := by
  have hgit := matchGitIgnores_layers env path isDir parentDir
  unfold isEntryIncludedPure
  rw [hgit]
  cases matchFdignorePure env path isDir parentDir with
  | some dec => rfl
  | none =>
    cases matchDotIgnorePure env path isDir parentDir with
    | some dec => rfl
    | none =>
      cases layerGitLocal env path isDir parentDir with
      | some dec => rfl
      | none =>
        cases layerInfoExclude env path isDir parentDir with
        | some dec => rfl
        | none =>
          cases layerGlobalGit env path isDir parentDir with
          | some dec => rfl
          | none => cases matchGlobalFdPure env path isDir <;> rfl

/-! ## Boolean normal forms of the decision engine -/

theorem isDirWalkablePure_eq (env : Env) (cfg : FilterConfig) (dir : FsPath) :
    isDirWalkablePure env cfg dir =
      (!(!cfg.include_hidden && is_hidden_under_base dir cfg.search_base) &&
        (!cfg.ignore_enabled || isEntryIncludedPure env dir true (parentOr dir))) := by
  unfold isDirWalkablePure
  cases h1 : (!cfg.include_hidden && is_hidden_under_base dir cfg.search_base) <;>
    cases h2 : cfg.ignore_enabled <;> simp [*]

theorem shouldIncludeWith_eq (env : Env) (cfg : FilterConfig) (path : FsPath) (isDir : Bool) :
    shouldIncludeWith env cfg path isDir =
      (!(!cfg.include_hidden && is_hidden_under_base path cfg.search_base) &&
        isWalkableToPure env cfg path isDir &&
        (!cfg.ignore_enabled || isEntryIncludedPure env path isDir (parentOr path))) := by
  unfold shouldIncludeWith
  cases h1 : (!cfg.include_hidden && is_hidden_under_base path cfg.search_base) <;>
    cases h2 : isWalkableToPure env cfg path isDir <;>
    cases h3 : cfg.ignore_enabled <;> simp [*]

/-! ## List helpers -/

theorem take_append_le {α : Type} (l₁ l₂ : List α) (k : ℕ) (h : k ≤ l₁.length) :
    (l₁ ++ l₂).take k = l₁.take k := by
  rw [List.take_append_eq_append_take]
  have h0 : k - l₁.length = 0 := by omega
  simp [h0]

theorem any_take_false {α : Type} {l : List α} {f : α → Bool} (h : l.any f = false) (k : ℕ) :
    (l.take k).any f = false := by
  rw [List.any_eq_false] at h ⊢
  intro c hc
  exact h c ((List.take_sublist k l).mem hc)

theorem hidden_under_base_append (base t : FsPath) :
    is_hidden_under_base (base ++ t) base = t.any is_hidden_component := by
  rw [is_hidden_under_base, if_pos (by rw [isBasePrefixOf_iff]; exact ⟨t, rfl⟩)]
  rw [List.drop_left]

theorem hidden_take_false {p base : FsPath} (k : ℕ) (hbp : isBasePrefixOf base p = true)
    (hbk : base.length ≤ k) (h : is_hidden_under_base p base = false) :
    is_hidden_under_base (p.take k) base = false := by
  obtain ⟨t, rfl⟩ := (isBasePrefixOf_iff base p).1 hbp
  rw [List.take_append_eq_append_take, List.take_of_length_le (by omega)]
  rw [hidden_under_base_append] at h ⊢
  exact any_take_false h _

theorem basePrefix_take {base p : FsPath} (k : ℕ) (hbp : isBasePrefixOf base p = true)
    (hbk : base.length ≤ k) : isBasePrefixOf base (p.take k) = true := by
  obtain ⟨t, rfl⟩ := (isBasePrefixOf_iff base p).1 hbp
  rw [List.take_append_eq_append_take, List.take_of_length_le (by omega), isBasePrefixOf_iff]
  exact ⟨t.take (k - base.length), rfl⟩

/-! ## Further helper lemmas for the claims -/

theorem container_as_take (p : FsPath) (isDir : Bool) :
    ∃ m, (if isDir then p else parentOr p) = p.take m ∧ p.length - 1 ≤ m := by
  cases isDir with
  | true => exact ⟨p.length, (List.take_length p).symm, by omega⟩
  | false =>
    by_cases hp : p = []
    · exact ⟨0, by simp [hp, parentOr], by simp [hp]⟩
    · exact ⟨p.length - 1, by simp [parentOr, hp, List.dropLast_eq_take], le_refl _⟩

theorem basePrefix_of_take {base p : FsPath} {m : ℕ}
    (h : isBasePrefixOf base (p.take m) = true) : isBasePrefixOf base p = true := by
  obtain ⟨t, ht⟩ := (isBasePrefixOf_iff _ _).1 h
  rw [isBasePrefixOf_iff]
  exact ⟨t ++ p.drop m, by rw [← List.append_assoc, ← ht, List.take_append_drop]⟩

theorem basePrefix_append {base d t : FsPath} (h : isBasePrefixOf base d = true) :
    isBasePrefixOf base (d ++ t) = true := by
  obtain ⟨u, rfl⟩ := (isBasePrefixOf_iff base d).1 h
  rw [isBasePrefixOf_iff]
  exact ⟨u ++ t, by rw [List.append_assoc]⟩

/-- Characterisation of the repository-root locator: the result is the
deepest ancestor whose `.git/HEAD` is a regular file. -/
theorem repoRootPure_some_iff (env : Env) (d r : FsPath) :
    repoRootPure env d = some r ↔
      ∃ k, k ≤ d.length ∧ r = d.take k ∧ env.isFile (r ++ gitHeadTail) = true ∧
        ∀ j, k < j → j ≤ d.length → env.isFile (d.take j ++ gitHeadTail) = false := by
  induction d using List.reverseRecOn with
  | nil =>
    rw [repoRootPure_eq]
    by_cases hm : env.isFile (([] : FsPath) ++ gitHeadTail) = true
    · rw [if_pos hm]
      constructor
      · intro h
        injection h with h
        refine ⟨0, le_refl _, by simp [← h], ?_, ?_⟩
        · rw [← h]
          exact hm
        · intro j hj1 hj2
          simp only [List.length_nil] at hj2
          omega
      · rintro ⟨k, hk, hr, _, _⟩
        simp only [List.length_nil, Nat.le_zero] at hk
        subst hk
        simp only [List.take_nil] at hr
        rw [hr]
    · rw [if_neg hm, if_pos rfl]
      constructor
      · rintro ⟨⟩
      · rintro ⟨k, hk, hr, hmark, _⟩
        simp only [List.length_nil, Nat.le_zero] at hk
        subst hk
        simp only [List.take_nil] at hr
        subst hr
        exact absurd hmark hm
  | append_singleton ds a ih =>
    have hne : ds ++ [a] ≠ [] := by simp
    have hlen : (ds ++ [a]).length = ds.length + 1 := by simp
    rw [repoRootPure_eq]
    by_cases hm : env.isFile ((ds ++ [a]) ++ gitHeadTail) = true
    · rw [if_pos hm]
      constructor
      · intro h
        injection h with h
        refine ⟨(ds ++ [a]).length, le_refl _, ?_, ?_, ?_⟩
        · rw [List.take_length]
          exact h.symm
        · rw [← h]
          exact hm
        · intro j hj1 hj2
          omega
      · rintro ⟨k, hk, hr, hmark, hmax⟩
        by_cases hkl : k = (ds ++ [a]).length
        · subst hkl
          rw [List.take_length] at hr
          rw [hr]
        · exfalso
          have hx := hmax (ds ++ [a]).length (by omega) (le_refl _)
          rw [List.take_length] at hx
          rw [hx] at hm
          exact Bool.noConfusion hm
    · rw [if_neg hm, if_neg hne]
      have hdl : (ds ++ [a]).dropLast = ds := by simp
      rw [hdl, ih]
      constructor
      · rintro ⟨k, hk, hr, hmark, hmax⟩
        refine ⟨k, by omega, ?_, hmark, ?_⟩
        · rw [take_append_le ds [a] k hk]
          exact hr
        · intro j hj1 hj2
          by_cases hjl : j ≤ ds.length
          · rw [take_append_le ds [a] j hjl]
            exact hmax j hj1 hjl
          · have hje : j = (ds ++ [a]).length := by omega
            rw [hje, List.take_length]
            cases hb : env.isFile ((ds ++ [a]) ++ gitHeadTail) with
            | false => rfl
            | true => exact absurd hb hm
      · rintro ⟨k, hk, hr, hmark, hmax⟩
        have hkds : k ≤ ds.length := by
          by_contra hgt
          have hkeq : k = (ds ++ [a]).length := by omega
          rw [hkeq, List.take_length] at hr
          rw [hr] at hmark
          exact hm hmark
        refine ⟨k, hkds, ?_, hmark, ?_⟩
        · rw [← take_append_le ds [a] k hkds]
          exact hr
        · intro j hj1 hj2
          have hx := hmax j hj1 (by omega)
          rw [take_append_le ds [a] j hj2] at hx
          exact hx


/-- When a directory queried as a directory would be excluded, some
ancestor at or below the search base fails the uncached walkability
test. -/
theorem walkable_false_witness_k {env : Env} {cfg : FilterConfig} {d : FsPath}
    (hbase : isBasePrefixOf cfg.search_base d = true)
    (h : shouldIncludeWith env cfg d true = false) :
    ∃ k, cfg.search_base.length ≤ k ∧ k ≤ d.length ∧
      isDirWalkablePure env cfg (d.take k) = false := by
  rw [shouldIncludeWith_eq] at h
  by_cases hh : (!cfg.include_hidden && is_hidden_under_base d cfg.search_base) = true
  · refine ⟨d.length, isBasePrefixOf_length hbase, le_refl _, ?_⟩
    rw [List.take_length, isDirWalkablePure_eq, hh]
    rfl
  · have hh' : (!cfg.include_hidden && is_hidden_under_base d cfg.search_base) = false := by
      cases hc : (!cfg.include_hidden && is_hidden_under_base d cfg.search_base) with
      | false => rfl
      | true => exact absurd hc hh
    rw [hh'] at h
    simp only [Bool.not_false, Bool.true_and] at h
    by_cases hw : isWalkableToPure env cfg d true = false
    · simp only [isWalkableToPure, if_true] at hw
      rw [if_pos hbase] at hw
      by_contra hno
      push_neg at hno
      have hcw : chainWalkablePure env cfg d = true := by
        rw [chainWalkable_iff]
        intro k hk1 hk2
        cases hv : isDirWalkablePure env cfg (d.take k) with
        | false => exact absurd hv (hno k hk1 hk2)
        | true => rfl
      rw [hcw] at hw
      exact Bool.noConfusion hw
    · have hw' : isWalkableToPure env cfg d true = true := by
        cases hv : isWalkableToPure env cfg d true with
        | false => exact absurd hv hw
        | true => rfl
      rw [hw'] at h
      simp only [Bool.true_and] at h
      refine ⟨d.length, isBasePrefixOf_length hbase, le_refl _, ?_⟩
      rw [List.take_length, isDirWalkablePure_eq, hh', h]
      rfl

/-! ### Claim C1 -/

/-- C1: pruning soundness.  If some proper ancestor directory `d` of `p`
at or below the search base would be judged excluded when queried as a
directory, then `should_include p` is false, regardless of ignore rules
applying at `p` itself (in particular a whitelist on `p`). -/
theorem pruning_soundness (env : Env) (cfg : FilterConfig) (p d : FsPath)
    (hbase : isBasePrefixOf cfg.search_base d = true)
    (hanc : isBasePrefixOf d p = true)
    (hne : d ≠ p)
    (hexcl : shouldIncludeWith env cfg d true = false) :
    shouldIncludePure env cfg p = false := by
  obtain ⟨k, hk1, hk2, hkf⟩ := walkable_false_witness_k hbase hexcl
  obtain ⟨t, rfl⟩ := (isBasePrefixOf_iff d p).1 hanc
  have ht : t ≠ [] := by
    rintro rfl
    simp at hne
  have hdlt : d.length < (d ++ t).length := by
    rw [List.length_append]
    have := List.length_pos.mpr ht
    omega
  unfold shouldIncludePure
  rw [shouldIncludeWith_eq]
  by_cases hh : (!cfg.include_hidden && is_hidden_under_base (d ++ t) cfg.search_base) = true
  · rw [hh]
    rfl
  · have hh' : (!cfg.include_hidden && is_hidden_under_base (d ++ t) cfg.search_base) = false := by
      cases hc : (!cfg.include_hidden && is_hidden_under_base (d ++ t) cfg.search_base) with
      | false => rfl
      | true => exact absurd hc hh
    rw [hh']
    obtain ⟨m, hm, hmlen⟩ := container_as_take (d ++ t) ((env.statIsDir (d ++ t)).getD false)
    have hlapp : (d ++ t).length = d.length + t.length := List.length_append d t
    have hdm : d.length ≤ m := by omega
    have hbc : isBasePrefixOf cfg.search_base ((d ++ t).take m) = true := by
      refine basePrefix_take m (basePrefix_append hbase) ?_
      have := isBasePrefixOf_length hbase
      omega
    have hwf : isWalkableToPure env cfg (d ++ t) ((env.statIsDir (d ++ t)).getD false) = false := by
      simp only [isWalkableToPure]
      rw [hm, if_pos hbc]
      cases hcw : chainWalkablePure env cfg ((d ++ t).take m) with
      | false => rfl
      | true =>
        exfalso
        have hv := (chainWalkable_iff.mp hcw) k hk1 (by
          rw [List.length_take, List.length_append]
          omega)
        rw [List.take_take] at hv
        have hmin : min k m = k := by omega
        rw [hmin, take_append_le d t k hk2] at hv
        rw [hv] at hkf
        exact Bool.noConfusion hkf
    rw [hwf]
    rfl

/-- Environment in which every probe fails or abstains: no directories,
no files, no matchers, no globals. -/
def envAbstain : Env :=
  ⟨fun _ => some false, fun _ => false, fun _ _ => none, fun _ => none, fun _ _ => none, none⟩

/-- Default-like configuration: hidden files excluded, ignores enabled,
search base at the filesystem root. -/
def cfgDefault : FilterConfig := ⟨[], [], false, true⟩

theorem pruning_soundness_witness :
    shouldIncludePure envAbstain cfgDefault [[46, 120], [121]] = false :=
  pruning_soundness envAbstain cfgDefault [[46, 120], [121]] [[46, 120]]
    (by decide) (by decide) (by decide) (by decide)

/-! ### Claim C2 -/

/-- C2: precedence total order.  The ignore composition equals the
first-non-abstaining-layer rule over the six layers in their fixed
order (tool-specific ignore files over all ancestors, neutral ignore
files over all ancestors, VCS-local ignore files closest-first up to the
repository root, the repository info-exclude, the global VCS ignore, the
global tool-specific ignore), where a `Whitelist` decision includes, an
`Ignore` decision excludes, and with no decision the entry is included;
lower layers never influence the result once a higher layer decides. -/
theorem precedence_total_order (env : Env) (path : FsPath) (isDir : Bool) (parentDir : FsPath) :
    isEntryIncludedPure env path isDir parentDir =
      composeLayers [matchFdignorePure env path isDir parentDir,
        matchDotIgnorePure env path isDir parentDir,
        layerGitLocal env path isDir parentDir,
        layerInfoExclude env path isDir parentDir,
        layerGlobalGit env path isDir parentDir,
        matchGlobalFdPure env path isDir] ∧
    IgnoreDecision.isInclude .Whitelist = true ∧
    IgnoreDecision.isInclude .Ignore = false :=
  ⟨isEntryIncluded_layers env path isDir parentDir, rfl, rfl⟩

/-! ### Claim C3 -/

/-- C3: repository scoping.  The three VCS layers abstain whenever the
candidate's parent directory has no repository root, and the repository
root is exactly the nearest ancestor directory whose `.git/HEAD` is a
regular file (so removing that file removes the gate and with it any
`.gitignore` decision, modulo the other layers). -/
theorem repository_scoping (env : Env) (path : FsPath) (isDir : Bool) (parentDir : FsPath) :
    (repoRootPure env parentDir = none →
      matchGitIgnoresPure env path isDir parentDir = none) ∧
    ∀ r, repoRootPure env parentDir = some r ↔
      ∃ k, k ≤ parentDir.length ∧ r = parentDir.take k ∧
        env.isFile (r ++ gitHeadTail) = true ∧
        ∀ j, k < j → j ≤ parentDir.length →
          env.isFile (parentDir.take j ++ gitHeadTail) = false := by
  constructor
  · intro h
    unfold matchGitIgnoresPure
    rw [h]
  · intro r
    exact repoRootPure_some_iff env parentDir r

theorem repository_scoping_witness :
    matchGitIgnoresPure envAbstain [[98]] false [[97]] = none :=
  (repository_scoping envAbstain [[98]] false [[97]]).1 (by decide)

/-! ### Claim C7 -/

/-- C7: with `ignore_enabled = false` no ignore layer is consulted and
the decision is exactly the hidden filter: with `include_hidden = false`
a candidate is included iff it has no hidden component under the search
base, and with `include_hidden = true` every candidate is included. -/
theorem no_ignore_only_hidden_filter (env : Env) (cfg : FilterConfig) (path : FsPath)
    (h : cfg.ignore_enabled = false) :
    shouldIncludePure env cfg path =
      (cfg.include_hidden || !is_hidden_under_base path cfg.search_base) := by
  unfold shouldIncludePure
  rw [shouldIncludeWith_eq, h]
  simp only [Bool.not_false, Bool.or_true, Bool.and_true]
  have hwalk : is_hidden_under_base path cfg.search_base = false ∨ cfg.include_hidden = true →
      isWalkableToPure env cfg path ((env.statIsDir path).getD false) = true := by
    intro hyp
    simp only [isWalkableToPure]
    obtain ⟨m, hm, hmlen⟩ := container_as_take path ((env.statIsDir path).getD false)
    rw [hm]
    by_cases hbc : isBasePrefixOf cfg.search_base (path.take m) = true
    · rw [if_pos hbc, chainWalkable_iff]
      intro k hk1 hk2
      rw [isDirWalkablePure_eq, h]
      simp only [Bool.not_false, Bool.or_true, Bool.and_true]
      cases hyp with
      | inr hih => rw [hih]; rfl
      | inl hnh =>
        rw [List.take_take]
        have hbp : isBasePrefixOf cfg.search_base path = true := basePrefix_of_take hbc
        rw [hidden_take_false (min k m) hbp ?_ hnh]
        · cases cfg.include_hidden <;> rfl
        · have := isBasePrefixOf_length hbc
          rw [List.length_take] at this
          omega
    · rw [if_neg hbc]
  by_cases hih : cfg.include_hidden = true
  · rw [hih]
    simp only [Bool.not_true, Bool.false_and, Bool.not_false, Bool.true_and, Bool.true_or]
    rw [hwalk (Or.inr hih)]
    rfl
  · have hih' : cfg.include_hidden = false := by
      cases hc : cfg.include_hidden with
      | false => rfl
      | true => exact absurd hc hih
    rw [hih']
    simp only [Bool.not_false, Bool.true_and, Bool.false_or]
    cases hnh : is_hidden_under_base path cfg.search_base with
    | true => rfl
    | false =>
      simp only [Bool.not_false, Bool.true_and]
      rw [hwalk (Or.inl hnh)]
      rfl

/-- Configuration with ignores disabled and hidden filtering on. -/
def cfgNoIgnore : FilterConfig := ⟨[], [], false, false⟩

theorem no_ignore_witness :
    shouldIncludePure envAbstain cfgNoIgnore [[97]] =
      (cfgNoIgnore.include_hidden || !is_hidden_under_base [[97]] cfgNoIgnore.search_base) :=
  no_ignore_only_hidden_filter envAbstain cfgNoIgnore [[97]] (by decide)

/-! ### Claim C8 -/

/-- C8: failure semantics.  A failed stat on the candidate is treated as
"not a directory" and processing continues; a missing ignore file and an
unreadable or unparsable ignore file both yield no matcher, so the
corresponding ancestor step abstains and is skipped.  (The embedded
decision engine is a total function into `Bool` by construction.) -/
theorem failure_semantics (env : Env) (cfg : FilterConfig) (path : FsPath) :
    (env.statIsDir path = none →
      shouldIncludePure env cfg path = shouldIncludeWith env cfg path false) ∧
    (∀ dir fname, env.isFile (dir ++ [fname]) = false →
      buildIgnoreMatcher env dir fname = none) ∧
    (∀ dir fname, env.parseIgnore dir fname = none →
      buildIgnoreMatcher env dir fname = none) ∧
    (∀ kind isDir cur rest, buildIgnoreMatcher env cur (ignoreFileName kind) = none →
      matchAncestorsList env kind path isDir (cur :: rest) =
        matchAncestorsList env kind path isDir rest) := by
  refine ⟨?_, ?_, ?_, ?_⟩
  · intro h
    unfold shouldIncludePure
    rw [h]
    rfl
  · intro dir fname h
    unfold buildIgnoreMatcher
    rw [if_neg (by simp [h])]
  · intro dir fname h
    unfold buildIgnoreMatcher
    split
    · exact h
    · rfl
  · intro kind isDir cur rest h
    simp only [matchAncestorsList, ignoreFilePure, h, Option.none_bind]

/-- Environment in which every stat fails. -/
def envNoStat : Env :=
  ⟨fun _ => none, fun _ => false, fun _ _ => none, fun _ => none, fun _ _ => none, none⟩

theorem failure_semantics_witness :
    shouldIncludePure envNoStat cfgDefault [[97]] =
      shouldIncludeWith envNoStat cfgDefault [[97]] false :=
  (failure_semantics envNoStat cfgDefault [[97]]).1 (by decide)

/-! ### Claim C10 -/

/-- C10: when ignores are enabled and every layer of the composition
abstains, the entry is included: the default outcome of the composition
is inclusion. -/
theorem default_include_when_all_abstain (env : Env) (path : FsPath) (isDir : Bool)
    (parentDir : FsPath)
    (h1 : matchFdignorePure env path isDir parentDir = none)
    (h2 : matchDotIgnorePure env path isDir parentDir = none)
    (h3 : matchGitIgnoresPure env path isDir parentDir = none)
    (h4 : matchGlobalFdPure env path isDir = none) :
    isEntryIncludedPure env path isDir parentDir = true := by
  unfold isEntryIncludedPure
  rw [h1, h2, h3, h4]

theorem default_include_witness :
    isEntryIncludedPure envAbstain [[97]] false [] = true :=
  default_include_when_all_abstain envAbstain [[97]] false [] (by decide) (by decide)
    (by decide) (by decide)

/-! ### Claim C6 -/

/-- C6: for every absolute path and search base, the hidden predicate
strips the base prefix and reports the path hidden iff some remaining
component has first byte `0x2E` and is not literally `"."` or `".."`;
when the path does not start with the base the same component test is
applied to every component of the absolute path; and the components
`"."` and `".."` are never hidden. -/
theorem hidden_predicate_correct (p base : FsPath) :
    (is_hidden_under_base p base = true ↔ hiddenUnderBaseSpec p base) ∧
    is_hidden_component [46] = false ∧ is_hidden_component [46, 46] = false := by
  refine ⟨?_, rfl, rfl⟩
  unfold is_hidden_under_base hiddenUnderBaseSpec is_hidden_path
  split <;> simp [List.any_eq_true, is_hidden_component_iff]

/-! ### Claim C9 -/

/-- C9: the constructed index query string carries the case-insensitive
modifier (the trailing `c` after the closing quote) exactly when the
pattern has no uppercase character, and on the `-name` fast path (pattern
present, not a glob, base not an ephemeral system location) a
case-sensitive Rust-side substring matcher is attached exactly when the
pattern has an uppercase character. -/
theorem smart_case_symmetry (p : List Char) (base : FsPath) :
    (build_query (some p) =
      queryHeader ++ escape_query_string (if is_glob p then p else '*' :: (p ++ ['*'])) ++
        (if has_uppercase p then ['"'] else ['"', 'c'])) ∧
    (is_glob p = false → should_avoid_name_fast_path base = false →
      (build_mdfind_plan base (some p)).rust_matcher =
        (if has_uppercase p then some (.caseSensitiveSubstring p) else none)) := by
  constructor
  · cases hu : has_uppercase p <;> simp [build_query, hu]
  · intro hg ha
    simp [build_mdfind_plan, hg, ha]

/-- Witness for C9 at a concrete uppercase pattern and ordinary base. -/
theorem smart_case_symmetry_witness :
    is_glob "Foo".data = false ∧ should_avoid_name_fast_path [] = false ∧
    (build_mdfind_plan [] (some "Foo".data)).rust_matcher =
      (if has_uppercase "Foo".data then some (.caseSensitiveSubstring "Foo".data) else none) :=
  ⟨by decide, by decide, (smart_case_symmetry "Foo".data []).2 (by decide) (by decide)⟩

/-! ## Stateful embedding of `Filter` (cache-filling code)

`FilterState` holds the five caches of the Rust `Filter` (three
ignore-file caches, the repo-root cache, the walkable cache) plus the
info-exclude cache.  Every stateful function returns its result together
with the updated state, mirroring `&mut self` in `filter.rs`. -/

/-- The mutable caches of a `Filter`. -/
structure FilterState where
  walkCache : FsPath → Option Bool
  repoCache : FsPath → Option (Option FsPath)
  fdigCache : FsPath → Option (Option IgMatcher)
  digCache : FsPath → Option (Option IgMatcher)
  gigCache : FsPath → Option (Option IgMatcher)
  infoCache : FsPath → Option IgMatcher

/-- A freshly constructed `Filter`: all caches empty. -/
def initState : FilterState :=
  ⟨fun _ => none, fun _ => none, fun _ => none, fun _ => none, fun _ => none, fun _ => none⟩

/-- `get_or_build_ignore_file`: consult the cache, on a miss probe the
filesystem once and record the result. -/
def getOrBuildIgnoreFile (env : Env) (fname : FName) (cache : FsPath → Option (Option IgMatcher))
    (dir : FsPath) : Option IgMatcher × (FsPath → Option (Option IgMatcher)) :=
  match cache dir with
  | some v => (v, cache)
  | none =>
    (buildIgnoreMatcher env dir fname,
      fun x => if x = dir then some (buildIgnoreMatcher env dir fname) else cache x)

/-- `fdignore_in_dir`. -/
def fdignoreInS (env : Env) (σ : FilterState) (dir : FsPath) : Option IgMatcher × FilterState :=
  let r := getOrBuildIgnoreFile env fdignoreName σ.fdigCache dir
  (r.1, { σ with fdigCache := r.2 })

/-- `ignore_in_dir`. -/
def dotIgnoreInS (env : Env) (σ : FilterState) (dir : FsPath) : Option IgMatcher × FilterState :=
  let r := getOrBuildIgnoreFile env dotIgnoreName σ.digCache dir
  (r.1, { σ with digCache := r.2 })

/-- `gitignore_in_dir`. -/
def gitignoreInS (env : Env) (σ : FilterState) (dir : FsPath) : Option IgMatcher × FilterState :=
  let r := getOrBuildIgnoreFile env gitignoreName σ.gigCache dir
  (r.1, { σ with gigCache := r.2 })

/-- The kind dispatch inside `match_from_ancestors`. -/
def ignoreInDirS (env : Env) (kind : IgnoreKind) (σ : FilterState) (dir : FsPath) :
    Option IgMatcher × FilterState :=
  match kind with
  | .FdIgnore => fdignoreInS env σ dir
  | .DotIgnore => dotIgnoreInS env σ dir

/-- `info_exclude_for_repo`: per-repository memoised info-exclude
matcher. -/
def infoExcludeForRepoS (env : Env) (σ : FilterState) (repo : FsPath) :
    IgMatcher × FilterState :=
  match σ.infoCache repo with
  | some m => (m, σ)
  | none =>
    (buildInfoExclude env repo,
      { σ with infoCache := fun x => if x = repo then some (buildInfoExclude env repo)
          else σ.infoCache x })

/-- Populate the repo-root cache for every directory visited by one
upward scan. -/
def insertRepoAll (cache : FsPath → Option (Option FsPath)) (visited : List FsPath)
    (root : Option FsPath) : FsPath → Option (Option FsPath) :=
  visited.foldl (fun acc v => fun x => if x = v then some root else acc x) cache

/-- The loop of `repo_root_for_dir`, iterating the ancestor chain: on a
cache hit or a `.git/HEAD` hit (or on reaching the filesystem root),
record the answer for every visited directory. -/
def repoRootLoopList (env : Env) (cache : FsPath → Option (Option FsPath)) :
    List FsPath → List FsPath → Option FsPath × (FsPath → Option (Option FsPath))
  | _, [] => (none, cache)
  | visited, cur :: rest =>
    match cache cur with
    | some root => (root, insertRepoAll cache visited root)
    | none =>
      if env.isFile (cur ++ gitHeadTail) then
        (some cur, insertRepoAll cache (visited ++ [cur]) (some cur))
      else
        match rest with
        | [] => (none, insertRepoAll cache (visited ++ [cur]) none)
        | _ :: _ => repoRootLoopList env cache (visited ++ [cur]) rest

/-- `Filter::repo_root_for_dir`. -/
def repoRootForDirS (env : Env) (σ : FilterState) (dir : FsPath) : Option FsPath × FilterState :=
  let r := repoRootLoopList env σ.repoCache [] (ancestorChain dir)
  (r.1, { σ with repoCache := r.2 })

/-- `match_from_ancestors`, stateful: the ignore-file caches fill as the
walk visits each ancestor. -/
def matchAncestorsS (env : Env) (kind : IgnoreKind) (path : FsPath) (isDir : Bool) :
    FilterState → List FsPath → Option IgnoreDecision × FilterState
  | σ, [] => (none, σ)
  | σ, cur :: rest =>
    let g := ignoreInDirS env kind σ cur
    match g.1.bind (fun m => m path isDir) with
    | some dec => (some dec, g.2)
    | none => matchAncestorsS env kind path isDir g.2 rest

/-- The `.gitignore` walk of `match_git_ignores`, stateful. -/
def gitWalkS (env : Env) (path : FsPath) (isDir : Bool) (root : FsPath) :
    FilterState → List FsPath → Option IgnoreDecision × FilterState
  | σ, [] => (none, σ)
  | σ, cur :: rest =>
    let g := gitignoreInS env σ cur
    match g.1.bind (fun m => m path isDir) with
    | some dec => (some dec, g.2)
    | none => if cur = root then (none, g.2) else gitWalkS env path isDir root g.2 rest

/-- The body of `match_git_ignores` below the repo-root gate,
stateful. -/
def gitLayersWithRootS (env : Env) (σ : FilterState) (path : FsPath) (isDir : Bool)
    (parentDir root : FsPath) : Option IgnoreDecision × FilterState :=
  let gw := gitWalkS env path isDir root σ (ancestorChain parentDir)
  match gw.1 with
  | some dec => (some dec, gw.2)
  | none =>
    let ie := infoExcludeForRepoS env gw.2 root
    match ie.1 path isDir with
    | some dec => (some dec, ie.2)
    | none =>
      match env.globalGitignore path isDir with
      | some dec => (some dec, ie.2)
      | none => (none, ie.2)

/-- `match_git_ignores`, stateful. -/
def matchGitIgnoresS (env : Env) (σ : FilterState) (path : FsPath) (isDir : Bool)
    (parentDir : FsPath) : Option IgnoreDecision × FilterState :=
  let rr := repoRootForDirS env σ parentDir
  match rr.1 with
  | none => (none, rr.2)
  | some root => gitLayersWithRootS env rr.2 path isDir parentDir root

/-- `Filter::is_entry_included`, stateful. -/
def isEntryIncludedS (env : Env) (σ : FilterState) (path : FsPath) (isDir : Bool)
    (parentDir : FsPath) : Bool × FilterState :=
  let r1 := matchAncestorsS env .FdIgnore path isDir σ (ancestorChain parentDir)
  match r1.1 with
  | some dec => (dec.isInclude, r1.2)
  | none =>
    let r2 := matchAncestorsS env .DotIgnore path isDir r1.2 (ancestorChain parentDir)
    match r2.1 with
    | some dec => (dec.isInclude, r2.2)
    | none =>
      let r3 := matchGitIgnoresS env r2.2 path isDir parentDir
      match r3.1 with
      | some dec => (dec.isInclude, r3.2)
      | none =>
        match matchGlobalFdPure env path isDir with
        | some dec => (dec.isInclude, r3.2)
        | none => (true, r3.2)

/-- `Filter::is_dir_walkable_uncached`, stateful. -/
def isDirWalkableUncachedS (env : Env) (cfg : FilterConfig) (σ : FilterState) (dir : FsPath) :
    Bool × FilterState :=
  if !cfg.include_hidden && is_hidden_under_base dir cfg.search_base then (false, σ)
  else if !cfg.ignore_enabled then (true, σ)
  else isEntryIncludedS env σ dir true (parentOr dir)

/-- Record one walkability decision in the cache. -/
def withWalk (σ : FilterState) (d : FsPath) (b : Bool) : FilterState :=
  { σ with walkCache := fun x => if x = d then some b else σ.walkCache x }

/-- The first loop of `is_walkable_to`, iterating the ancestor chain of
the container: collect the cache-missing suffix (leaf first), stopping
at a cached entry or at the search base; a cached negative entry aborts
the whole query. -/
def collectMissingList (base : FsPath) (w : FsPath → Option Bool) :
    List FsPath → Option (List FsPath)
  | [] => some []
  | cur :: rest =>
    match w cur with
    | some true => some []
    | some false => none
    | none =>
      if cur = base then some [cur]
      else
        match rest with
        | [] => some [cur]
        | _ :: _ => (collectMissingList base w rest).map (fun ms => cur :: ms)

/-- The second loop of `is_walkable_to`: evaluate the missing
directories root-to-leaf, caching each result and stopping at the first
non-walkable one. -/
def evalMissing (env : Env) (cfg : FilterConfig) :
    FilterState → List FsPath → Bool × FilterState
  | σ, [] => (true, σ)
  | σ, d :: ds =>
    let r := isDirWalkableUncachedS env cfg σ d
    let σ2 := withWalk r.2 d r.1
    if r.1 then evalMissing env cfg σ2 ds else (false, σ2)

/-- `Filter::is_walkable_to`, stateful. -/
def isWalkableToS (env : Env) (cfg : FilterConfig) (σ : FilterState) (path : FsPath)
    (isDir : Bool) : Bool × FilterState :=
  let container := if isDir then path else parentOr path
  if isBasePrefixOf cfg.search_base container then
    match collectMissingList cfg.search_base σ.walkCache (ancestorChain container) with
    | none => (false, σ)
    | some missing => evalMissing env cfg σ missing.reverse
  else (true, σ)

/-- `Filter::should_include`, stateful. -/
def shouldIncludeS (env : Env) (cfg : FilterConfig) (σ : FilterState) (path : FsPath) :
    Bool × FilterState :=
  let isDir := (env.statIsDir path).getD false
  if !cfg.include_hidden && is_hidden_under_base path cfg.search_base then (false, σ)
  else
    let w := isWalkableToS env cfg σ path isDir
    if !w.1 then (false, w.2)
    else if !cfg.ignore_enabled then (true, w.2)
    else isEntryIncludedS env w.2 path isDir (parentOr path)

/-- Feed a list of candidates through one `Filter`, returning the
decisions in order together with the final cache state. -/
def runAll (env : Env) (cfg : FilterConfig) :
    FilterState → List FsPath → List Bool × FilterState
  | σ, [] => ([], σ)
  | σ, p :: ps =>
    let r := shouldIncludeS env cfg σ p
    let rs := runAll env cfg r.2 ps
    (r.1 :: rs.1, rs.2)

/-! ## Cache invariants -/

/-- An ignore-file cache entry always equals the pure probe result. -/
def IgCacheInv (env : Env) (fname : FName) (c : FsPath → Option (Option IgMatcher)) : Prop :=
  ∀ d v, c d = some v → v = buildIgnoreMatcher env d fname

/-- An info-exclude cache entry always equals the pure build result. -/
def InfoCacheInv (env : Env) (c : FsPath → Option IgMatcher) : Prop :=
  ∀ r m, c r = some m → m = buildInfoExclude env r

/-- A repo-root cache entry always equals the pure locator result. -/
def RepoCacheInv (env : Env) (c : FsPath → Option (Option FsPath)) : Prop :=
  ∀ d r, c d = some r → r = repoRootPure env d

/-- The combined invariant of a `FilterState`: every cache entry equals
its pure denotation, and positive walkable entries have all ancestors up
to the search base cached positive. -/
structure FullInv (env : Env) (cfg : FilterConfig) (σ : FilterState) : Prop where
  fdig : IgCacheInv env fdignoreName σ.fdigCache
  dig : IgCacheInv env dotIgnoreName σ.digCache
  gig : IgCacheInv env gitignoreName σ.gigCache
  info : InfoCacheInv env σ.infoCache
  repo : RepoCacheInv env σ.repoCache
  walkVal : ∀ d b, σ.walkCache d = some b → b = isDirWalkablePure env cfg d
  walkAnc : ∀ d, σ.walkCache d = some true → ∀ k, cfg.search_base.length ≤ k →
    k ≤ d.length → σ.walkCache (d.take k) = some true

theorem initState_inv (env : Env) (cfg : FilterConfig) : FullInv env cfg initState := by
  refine ⟨?_, ?_, ?_, ?_, ?_, ?_, ?_⟩
  · intro _ _ h
    exact Option.noConfusion h
  · intro _ _ h
    exact Option.noConfusion h
  · intro _ _ h
    exact Option.noConfusion h
  · intro _ _ h
    exact Option.noConfusion h
  · intro _ _ h
    exact Option.noConfusion h
  · intro _ _ h
    exact Option.noConfusion h
  · intro _ h
    exact Option.noConfusion h

/-! ## Transparency of the cached lookups -/

theorem getOrBuildIgnoreFile_spec (env : Env) (fname : FName)
    (cache : FsPath → Option (Option IgMatcher)) (dir : FsPath)
    (hinv : IgCacheInv env fname cache) :
    (getOrBuildIgnoreFile env fname cache dir).1 = buildIgnoreMatcher env dir fname ∧
    IgCacheInv env fname (getOrBuildIgnoreFile env fname cache dir).2 := by
  unfold getOrBuildIgnoreFile
  cases hc : cache dir with
  | some v => exact ⟨hinv dir v hc, hinv⟩
  | none =>
    refine ⟨rfl, ?_⟩
    intro d v hd
    simp only at hd
    by_cases hdd : d = dir
    · rw [if_pos hdd] at hd
      injection hd with hd
      rw [← hd, hdd]
    · rw [if_neg hdd] at hd
      exact hinv d v hd

theorem ignoreInDirS_spec (env : Env) (cfg : FilterConfig) (kind : IgnoreKind)
    (σ : FilterState) (dir : FsPath) (h : FullInv env cfg σ) :
    (ignoreInDirS env kind σ dir).1 = ignoreFilePure env kind dir ∧
    FullInv env cfg (ignoreInDirS env kind σ dir).2 ∧
    (ignoreInDirS env kind σ dir).2.walkCache = σ.walkCache := by
  cases kind with
  | FdIgnore =>
    obtain ⟨h1, h2⟩ := getOrBuildIgnoreFile_spec env fdignoreName σ.fdigCache dir h.fdig
    exact ⟨h1, ⟨h2, h.dig, h.gig, h.info, h.repo, h.walkVal, h.walkAnc⟩, rfl⟩
  | DotIgnore =>
    obtain ⟨h1, h2⟩ := getOrBuildIgnoreFile_spec env dotIgnoreName σ.digCache dir h.dig
    exact ⟨h1, ⟨h.fdig, h2, h.gig, h.info, h.repo, h.walkVal, h.walkAnc⟩, rfl⟩

theorem gitignoreInS_spec (env : Env) (cfg : FilterConfig) (σ : FilterState) (dir : FsPath)
    (h : FullInv env cfg σ) :
    (gitignoreInS env σ dir).1 = gitignorePure env dir ∧
    FullInv env cfg (gitignoreInS env σ dir).2 ∧
    (gitignoreInS env σ dir).2.walkCache = σ.walkCache := by
  obtain ⟨h1, h2⟩ := getOrBuildIgnoreFile_spec env gitignoreName σ.gigCache dir h.gig
  exact ⟨h1, ⟨h.fdig, h.dig, h2, h.info, h.repo, h.walkVal, h.walkAnc⟩, rfl⟩

theorem infoExcludeForRepoS_spec (env : Env) (cfg : FilterConfig) (σ : FilterState)
    (repo : FsPath) (h : FullInv env cfg σ) :
    (infoExcludeForRepoS env σ repo).1 = buildInfoExclude env repo ∧
    FullInv env cfg (infoExcludeForRepoS env σ repo).2 ∧
    (infoExcludeForRepoS env σ repo).2.walkCache = σ.walkCache := by
  unfold infoExcludeForRepoS
  cases hc : σ.infoCache repo with
  | some m => exact ⟨h.info repo m hc, h, rfl⟩
  | none =>
    refine ⟨rfl, ⟨h.fdig, h.dig, h.gig, ?_, h.repo, h.walkVal, h.walkAnc⟩, rfl⟩
    intro r m hr
    simp only at hr
    by_cases hrr : r = repo
    · rw [if_pos hrr] at hr
      injection hr with hr
      rw [← hr, hrr]
    · rw [if_neg hrr] at hr
      exact h.info r m hr

theorem insertRepoAll_inv (env : Env) (cache : FsPath → Option (Option FsPath))
    (visited : List FsPath) (root : Option FsPath)
    (hc : RepoCacheInv env cache) (hv : ∀ v ∈ visited, repoRootPure env v = root) :
    RepoCacheInv env (insertRepoAll cache visited root) := by
  induction visited generalizing cache with
  | nil => exact hc
  | cons v vs ih =>
    show RepoCacheInv env
      (insertRepoAll (fun x => if x = v then some root else cache x) vs root)
    apply ih
    · intro d r hd
      simp only at hd
      by_cases hdv : d = v
      · rw [if_pos hdv] at hd
        injection hd with hd
        rw [← hd, hdv]
        exact (hv v (by simp)).symm
      · rw [if_neg hdv] at hd
        exact hc d r hd
    · intro x hx
      exact hv x (by simp [hx])

theorem repoRootLoopList_nil_spec (env : Env) (visited : List FsPath)
    (cache : FsPath → Option (Option FsPath)) (hc : RepoCacheInv env cache)
    (hv : ∀ v ∈ visited, repoRootPure env v = repoRootPure env ([] : FsPath)) :
    (repoRootLoopList env cache visited (ancestorChain ([] : FsPath))).1 =
      repoRootPure env ([] : FsPath) ∧
    RepoCacheInv env (repoRootLoopList env cache visited (ancestorChain ([] : FsPath))).2 := by
  rw [ancestorChain_nil]
  simp only [repoRootLoopList]
  cases hcc : cache ([] : FsPath) with
  | some root =>
    refine ⟨hc _ _ hcc, insertRepoAll_inv env cache visited root hc ?_⟩
    intro v hvv
    rw [hv v hvv]
    exact (hc _ _ hcc).symm
  | none =>
    by_cases hm : env.isFile (([] : FsPath) ++ gitHeadTail) = true
    · rw [if_pos hm]
      have hr : repoRootPure env ([] : FsPath) = some [] := by
        rw [repoRootPure_eq, if_pos hm]
      refine ⟨hr.symm, insertRepoAll_inv env cache _ (some []) hc ?_⟩
      intro v hvv
      rcases List.mem_append.mp hvv with h1 | h1
      · rw [hv v h1, hr]
      · simp only [List.mem_singleton] at h1
        subst h1
        exact hr
    · rw [if_neg hm]
      have hr : repoRootPure env ([] : FsPath) = none := by
        rw [repoRootPure_eq, if_neg hm, if_pos rfl]
      refine ⟨hr.symm, insertRepoAll_inv env cache _ none hc ?_⟩
      intro v hvv
      rcases List.mem_append.mp hvv with h1 | h1
      · rw [hv v h1, hr]
      · simp only [List.mem_singleton] at h1
        subst h1
        exact hr

theorem repoRootLoopList_spec (env : Env) : ∀ (n : ℕ) (cur : FsPath), cur.length ≤ n →
    ∀ (visited : List FsPath) (cache : FsPath → Option (Option FsPath)),
      RepoCacheInv env cache →
      (∀ v ∈ visited, repoRootPure env v = repoRootPure env cur) →
      (repoRootLoopList env cache visited (ancestorChain cur)).1 = repoRootPure env cur ∧
      RepoCacheInv env (repoRootLoopList env cache visited (ancestorChain cur)).2 := by
  intro n
  induction n with
  | zero =>
    intro cur hlen visited cache hc hv
    have hcur : cur = [] := List.length_eq_zero.mp (Nat.le_zero.mp hlen)
    subst hcur
    exact repoRootLoopList_nil_spec env visited cache hc hv
  | succ n ih =>
    intro cur hlen visited cache hc hv
    by_cases hcur : cur = []
    · subst hcur
      exact repoRootLoopList_nil_spec env visited cache hc hv
    · rw [ancestorChain_cons cur hcur]
      simp only [repoRootLoopList]
      cases hcc : cache cur with
      | some root =>
        refine ⟨hc _ _ hcc, insertRepoAll_inv env cache visited root hc ?_⟩
        intro v hvv
        rw [hv v hvv]
        exact (hc _ _ hcc).symm
      | none =>
        by_cases hm : env.isFile (cur ++ gitHeadTail) = true
        · rw [if_pos hm]
          have hr : repoRootPure env cur = some cur := by
            rw [repoRootPure_eq, if_pos hm]
          refine ⟨hr.symm, insertRepoAll_inv env cache _ (some cur) hc ?_⟩
          intro v hvv
          rcases List.mem_append.mp hvv with h1 | h1
          · rw [hv v h1, hr]
          · simp only [List.mem_singleton] at h1
            subst h1
            exact hr
        · rw [if_neg hm]
          have hrec : repoRootPure env cur = repoRootPure env cur.dropLast := by
            rw [repoRootPure_eq, if_neg hm, if_neg hcur]
          have hlen' : cur.dropLast.length ≤ n := by
            have h1 := List.length_dropLast cur
            have h2 : 0 < cur.length := List.length_pos.mpr hcur
            omega
          have hv' : ∀ v ∈ visited ++ [cur],
              repoRootPure env v = repoRootPure env cur.dropLast := by
            intro v hvv
            rcases List.mem_append.mp hvv with h1 | h1
            · rw [hv v h1, hrec]
            · simp only [List.mem_singleton] at h1
              subst h1
              exact hrec
          have hmain := ih cur.dropLast hlen' (visited ++ [cur]) cache hc hv'
          cases hAC : ancestorChain cur.dropLast with
          | nil => exact absurd hAC (ancestorChain_ne_nil _)
          | cons a as =>
            rw [hAC] at hmain
            rw [hrec]
            exact hmain

theorem repoRootForDirS_spec (env : Env) (cfg : FilterConfig) (σ : FilterState) (dir : FsPath)
    (h : FullInv env cfg σ) :
    (repoRootForDirS env σ dir).1 = repoRootPure env dir ∧
    FullInv env cfg (repoRootForDirS env σ dir).2 ∧
    (repoRootForDirS env σ dir).2.walkCache = σ.walkCache := by
  obtain ⟨h1, h2⟩ := repoRootLoopList_spec env dir.length dir (le_refl _) [] σ.repoCache h.repo
    (by intro v hv; exact absurd hv (List.not_mem_nil v))
  exact ⟨h1, ⟨h.fdig, h.dig, h.gig, h.info, h2, h.walkVal, h.walkAnc⟩, rfl⟩

theorem matchAncestorsS_spec (env : Env) (cfg : FilterConfig) (kind : IgnoreKind)
    (path : FsPath) (isDir : Bool) :
    ∀ (L : List FsPath) (σ : FilterState), FullInv env cfg σ →
      (matchAncestorsS env kind path isDir σ L).1 = matchAncestorsList env kind path isDir L ∧
      FullInv env cfg (matchAncestorsS env kind path isDir σ L).2 ∧
      (matchAncestorsS env kind path isDir σ L).2.walkCache = σ.walkCache := by
  intro L
  induction L with
  | nil =>
    intro σ h
    exact ⟨rfl, h, rfl⟩
  | cons cur rest ih =>
    intro σ h
    obtain ⟨hg1, hg2, hg3⟩ := ignoreInDirS_spec env cfg kind σ cur h
    simp only [matchAncestorsS, matchAncestorsList]
    rw [hg1]
    cases hm : (ignoreFilePure env kind cur).bind (fun m => m path isDir) with
    | some dec => exact ⟨rfl, hg2, hg3⟩
    | none =>
      obtain ⟨ih1, ih2, ih3⟩ := ih (ignoreInDirS env kind σ cur).2 hg2
      exact ⟨ih1, ih2, ih3.trans hg3⟩

theorem gitWalkS_spec (env : Env) (cfg : FilterConfig) (path : FsPath) (isDir : Bool)
    (root : FsPath) :
    ∀ (L : List FsPath) (σ : FilterState), FullInv env cfg σ →
      (gitWalkS env path isDir root σ L).1 = gitWalkList env path isDir root L ∧
      FullInv env cfg (gitWalkS env path isDir root σ L).2 ∧
      (gitWalkS env path isDir root σ L).2.walkCache = σ.walkCache := by
  intro L
  induction L with
  | nil =>
    intro σ h
    exact ⟨rfl, h, rfl⟩
  | cons cur rest ih =>
    intro σ h
    obtain ⟨hg1, hg2, hg3⟩ := gitignoreInS_spec env cfg σ cur h
    simp only [gitWalkS, gitWalkList]
    rw [hg1]
    cases hm : (gitignorePure env cur).bind (fun m => m path isDir) with
    | some dec => exact ⟨rfl, hg2, hg3⟩
    | none =>
      by_cases hr : cur = root
      · rw [if_pos hr, if_pos hr]
        exact ⟨rfl, hg2, hg3⟩
      · rw [if_neg hr, if_neg hr]
        obtain ⟨ih1, ih2, ih3⟩ := ih (gitignoreInS env σ cur).2 hg2
        exact ⟨ih1, ih2, ih3.trans hg3⟩

theorem gitLayersWithRootS_spec (env : Env) (cfg : FilterConfig) (σ : FilterState)
    (path : FsPath) (isDir : Bool) (parentDir root : FsPath) (h : FullInv env cfg σ) :
    (gitLayersWithRootS env σ path isDir parentDir root).1 =
      gitLayersWithRoot env path isDir parentDir root ∧
    FullInv env cfg (gitLayersWithRootS env σ path isDir parentDir root).2 ∧
    (gitLayersWithRootS env σ path isDir parentDir root).2.walkCache = σ.walkCache := by
  obtain ⟨hw1, hw2, hw3⟩ := gitWalkS_spec env cfg path isDir root (ancestorChain parentDir) σ h
  simp only [gitLayersWithRootS]
  rw [hw1]
  unfold gitLayersWithRoot
  cases hg : gitWalkList env path isDir root (ancestorChain parentDir) with
  | some dec => exact ⟨rfl, hw2, hw3⟩
  | none =>
    obtain ⟨hi1, hi2, hi3⟩ := infoExcludeForRepoS_spec env cfg
      (gitWalkS env path isDir root σ (ancestorChain parentDir)).2 root hw2
    rw [hi1]
    cases hbi : buildInfoExclude env root path isDir with
    | some dec => exact ⟨rfl, hi2, hi3.trans hw3⟩
    | none =>
      cases hgg : env.globalGitignore path isDir with
      | some dec => exact ⟨rfl, hi2, hi3.trans hw3⟩
      | none => exact ⟨rfl, hi2, hi3.trans hw3⟩

theorem matchGitIgnoresS_spec (env : Env) (cfg : FilterConfig) (σ : FilterState)
    (path : FsPath) (isDir : Bool) (parentDir : FsPath) (h : FullInv env cfg σ) :
    (matchGitIgnoresS env σ path isDir parentDir).1 =
      matchGitIgnoresPure env path isDir parentDir ∧
    FullInv env cfg (matchGitIgnoresS env σ path isDir parentDir).2 ∧
    (matchGitIgnoresS env σ path isDir parentDir).2.walkCache = σ.walkCache := by
  obtain ⟨hr1, hr2, hr3⟩ := repoRootForDirS_spec env cfg σ parentDir h
  simp only [matchGitIgnoresS]
  rw [hr1]
  unfold matchGitIgnoresPure
  cases hroot : repoRootPure env parentDir with
  | none => exact ⟨rfl, hr2, hr3⟩
  | some root =>
    obtain ⟨hg1, hg2, hg3⟩ := gitLayersWithRootS_spec env cfg
      (repoRootForDirS env σ parentDir).2 path isDir parentDir root hr2
    exact ⟨hg1, hg2, hg3.trans hr3⟩

theorem isEntryIncludedS_spec (env : Env) (cfg : FilterConfig) (σ : FilterState)
    (path : FsPath) (isDir : Bool) (parentDir : FsPath) (h : FullInv env cfg σ) :
    (isEntryIncludedS env σ path isDir parentDir).1 =
      isEntryIncludedPure env path isDir parentDir ∧
    FullInv env cfg (isEntryIncludedS env σ path isDir parentDir).2 ∧
    (isEntryIncludedS env σ path isDir parentDir).2.walkCache = σ.walkCache := by
  obtain ⟨h11, h12, h13⟩ := matchAncestorsS_spec env cfg .FdIgnore path isDir
    (ancestorChain parentDir) σ h
  simp only [isEntryIncludedS]
  rw [h11]
  unfold isEntryIncludedPure matchFdignorePure matchDotIgnorePure
  cases hm1 : matchAncestorsList env .FdIgnore path isDir (ancestorChain parentDir) with
  | some dec => exact ⟨rfl, h12, h13⟩
  | none =>
    obtain ⟨h21, h22, h23⟩ := matchAncestorsS_spec env cfg .DotIgnore path isDir
      (ancestorChain parentDir) (matchAncestorsS env .FdIgnore path isDir σ
        (ancestorChain parentDir)).2 h12
    rw [h21]
    cases hm2 : matchAncestorsList env .DotIgnore path isDir (ancestorChain parentDir) with
    | some dec => exact ⟨rfl, h22, h23.trans h13⟩
    | none =>
      obtain ⟨h31, h32, h33⟩ := matchGitIgnoresS_spec env cfg _ path isDir parentDir h22
      rw [h31]
      cases hm3 : matchGitIgnoresPure env path isDir parentDir with
      | some dec => exact ⟨rfl, h32, (h33.trans h23).trans h13⟩
      | none =>
        cases hm4 : matchGlobalFdPure env path isDir with
        | some dec => exact ⟨rfl, h32, (h33.trans h23).trans h13⟩
        | none => exact ⟨rfl, h32, (h33.trans h23).trans h13⟩

theorem isDirWalkableUncachedS_spec (env : Env) (cfg : FilterConfig) (σ : FilterState)
    (dir : FsPath) (h : FullInv env cfg σ) :
    (isDirWalkableUncachedS env cfg σ dir).1 = isDirWalkablePure env cfg dir ∧
    FullInv env cfg (isDirWalkableUncachedS env cfg σ dir).2 ∧
    (isDirWalkableUncachedS env cfg σ dir).2.walkCache = σ.walkCache := by
  unfold isDirWalkableUncachedS isDirWalkablePure
  by_cases h1 : (!cfg.include_hidden && is_hidden_under_base dir cfg.search_base) = true
  · rw [if_pos h1, if_pos h1]
    exact ⟨rfl, h, rfl⟩
  · rw [if_neg h1, if_neg h1]
    by_cases h2 : (!cfg.ignore_enabled) = true
    · rw [if_pos h2, if_pos h2]
      exact ⟨rfl, h, rfl⟩
    · rw [if_neg h2, if_neg h2]
      exact isEntryIncludedS_spec env cfg σ dir true (parentOr dir) h

/-! ## Walkability: helper lemmas -/

theorem chainWalkable_top {env : Env} {cfg : FilterConfig} {c : FsPath}
    (h : chainWalkablePure env cfg c = true) (hb : cfg.search_base.length ≤ c.length) :
    isDirWalkablePure env cfg c = true := by
  have hx := chainWalkable_iff.mp h c.length hb (le_refl _)
  rwa [List.take_length] at hx

theorem chainWalkable_self (env : Env) (cfg : FilterConfig) (c : FsPath)
    (h : cfg.search_base.length = c.length) :
    chainWalkablePure env cfg c = isDirWalkablePure env cfg c := by
  cases hp : isDirWalkablePure env cfg c with
  | true =>
    have hx : chainWalkablePure env cfg c = true := by
      rw [chainWalkable_iff]
      intro k hk1 hk2
      have hk : k = c.length := by omega
      subst hk
      rw [List.take_length]
      exact hp
    rw [hx]
  | false =>
    cases hc : chainWalkablePure env cfg c with
    | false => rfl
    | true =>
      have hx := chainWalkable_top hc (by omega)
      rw [hx] at hp
      exact Bool.noConfusion hp

theorem chainWalkable_step (env : Env) (cfg : FilterConfig) (c : FsPath)
    (h : cfg.search_base.length < c.length) :
    chainWalkablePure env cfg c =
      (chainWalkablePure env cfg c.dropLast && isDirWalkablePure env cfg c) := by
  have hdl : c.dropLast.length = c.length - 1 := List.length_dropLast c
  cases hl : chainWalkablePure env cfg c with
  | true =>
    have h1 : chainWalkablePure env cfg c.dropLast = true := by
      rw [chainWalkable_iff]
      intro k hk1 hk2
      rw [← take_dropLast_eq c k (by omega)]
      exact chainWalkable_iff.mp hl k hk1 (by omega)
    have h2 : isDirWalkablePure env cfg c = true := chainWalkable_top hl (by omega)
    rw [h1, h2]
    rfl
  | false =>
    cases h1 : chainWalkablePure env cfg c.dropLast with
    | false => rfl
    | true =>
      cases h2 : isDirWalkablePure env cfg c with
      | false => rfl
      | true =>
        exfalso
        have hx : chainWalkablePure env cfg c = true := by
          rw [chainWalkable_iff]
          intro k hk1 hk2
          by_cases hkn : k = c.length
          · subst hkn
            rw [List.take_length]
            exact h2
          · rw [take_dropLast_eq c k (by omega)]
            exact chainWalkable_iff.mp h1 k hk1 (by omega)
        rw [hl] at hx
        exact Bool.noConfusion hx

theorem basePrefix_eq_of_length {base c : FsPath} (h : isBasePrefixOf base c = true)
    (hl : c.length ≤ base.length) : base = c := by
  obtain ⟨t, rfl⟩ := (isBasePrefixOf_iff base c).1 h
  have hx : t.length = 0 := by
    have := List.length_append base t
    omega
  have ht : t = [] := List.length_eq_zero.mp hx
  rw [ht, List.append_nil]

theorem evalMissing_append (env : Env) (cfg : FilterConfig) :
    ∀ (xs ys : List FsPath) (σ : FilterState),
      evalMissing env cfg σ (xs ++ ys) =
        (if (evalMissing env cfg σ xs).1 = true
         then evalMissing env cfg (evalMissing env cfg σ xs).2 ys
         else evalMissing env cfg σ xs) := by
  intro xs
  induction xs with
  | nil =>
    intro ys σ
    simp [evalMissing]
  | cons d ds ih =>
    intro ys σ
    simp only [List.cons_append, evalMissing]
    cases hr : (isDirWalkableUncachedS env cfg σ d).1 with
    | true =>
      simp only [eq_self_iff_true, if_true]
      exact ih ys _
    | false =>
      simp only [Bool.false_eq_true, if_false]

theorem withWalk_walkCache (σ : FilterState) (d : FsPath) (b : Bool) (x : FsPath) :
    (withWalk σ d b).walkCache x = if x = d then some b else σ.walkCache x := rfl

theorem withWalk_inv (env : Env) (cfg : FilterConfig) (σ1 : FilterState) (c : FsPath)
    (h : FullInv env cfg σ1) (hnone : σ1.walkCache c = none)
    (hanc : isDirWalkablePure env cfg c = true → ∀ k, cfg.search_base.length ≤ k →
      k ≤ c.length → k ≠ c.length → σ1.walkCache (c.take k) = some true) :
    FullInv env cfg (withWalk σ1 c (isDirWalkablePure env cfg c)) := by
  refine ⟨h.fdig, h.dig, h.gig, h.info, h.repo, ?_, ?_⟩
  · intro d b hd
    rw [withWalk_walkCache] at hd
    by_cases hdc : d = c
    · rw [if_pos hdc] at hd
      injection hd with hd
      rw [← hd, hdc]
    · rw [if_neg hdc] at hd
      exact h.walkVal d b hd
  · intro d hd k hk1 hk2
    rw [withWalk_walkCache] at hd
    by_cases hdc : d = c
    · rw [if_pos hdc] at hd
      injection hd with hd
      subst hdc
      by_cases hkn : k = d.length
      · subst hkn
        rw [List.take_length, withWalk_walkCache, if_pos rfl, ← hd]
      · have hcase := hanc hd k hk1 hk2 hkn
        rw [withWalk_walkCache]
        have hne : d.take k ≠ d := by
          intro hx
          have := congrArg List.length hx
          rw [List.length_take] at this
          omega
        rw [if_neg hne]
        exact hcase
    · rw [if_neg hdc] at hd
      have hstep := h.walkAnc d hd k hk1 hk2
      rw [withWalk_walkCache]
      by_cases htc : d.take k = c
      · rw [htc] at hstep
        rw [hstep] at hnone
        exact Option.noConfusion hnone
      · rw [if_neg htc]
        exact hstep

/-- The combined walkability scan of `is_walkable_to` once the container
is known to lie under the search base. -/
def walkChainS (env : Env) (cfg : FilterConfig) (σ : FilterState) (container : FsPath) :
    Bool × FilterState :=
  match collectMissingList cfg.search_base σ.walkCache (ancestorChain container) with
  | none => (false, σ)
  | some missing => evalMissing env cfg σ missing.reverse

theorem isWalkableToS_eq (env : Env) (cfg : FilterConfig) (σ : FilterState) (path : FsPath)
    (isDir : Bool) :
    isWalkableToS env cfg σ path isDir =
      (if isBasePrefixOf cfg.search_base (if isDir then path else parentOr path) = true
       then walkChainS env cfg σ (if isDir then path else parentOr path)
       else (true, σ)) := rfl

/-- Everything the walkability scan guarantees: the result equals the
pure chain walkability, the invariant is preserved, a positive result
leaves the whole chain cached positive, cache changes are confined to
fresh chain entries carrying their pure value, a positive scan adds only
positive entries, and a freshly added negative entry has nothing added
below it. -/
def WalkOut (env : Env) (cfg : FilterConfig) (σ : FilterState) (container : FsPath)
    (R : Bool × FilterState) : Prop :=
  R.1 = chainWalkablePure env cfg container ∧
  FullInv env cfg R.2 ∧
  (R.1 = true → ∀ k, cfg.search_base.length ≤ k → k ≤ container.length →
    R.2.walkCache (container.take k) = some true) ∧
  (∀ d, R.2.walkCache d ≠ σ.walkCache d → σ.walkCache d = none ∧
    (∃ k, cfg.search_base.length ≤ k ∧ k ≤ container.length ∧ d = container.take k) ∧
    R.2.walkCache d = some (isDirWalkablePure env cfg d)) ∧
  (R.1 = true → ∀ d, R.2.walkCache d ≠ σ.walkCache d → R.2.walkCache d = some true) ∧
  (∀ d, σ.walkCache d = none → R.2.walkCache d = some false →
    ∀ d2, d.length < d2.length → R.2.walkCache d2 = σ.walkCache d2)

theorem ancestorChain_head (p : FsPath) : ∃ tl, ancestorChain p = p :: tl := by
  by_cases hp : p = []
  · subst hp
    exact ⟨[], ancestorChain_nil⟩
  · exact ⟨_, ancestorChain_cons p hp⟩

theorem evalMissing_single (env : Env) (cfg : FilterConfig) (σw : FilterState) (c : FsPath)
    (h : FullInv env cfg σw) :
    evalMissing env cfg σw [c] =
      (isDirWalkablePure env cfg c,
        withWalk (isDirWalkableUncachedS env cfg σw c).2 c (isDirWalkablePure env cfg c)) := by
  obtain ⟨hr1, hr2, hr3⟩ := isDirWalkableUncachedS_spec env cfg σw c h
  simp only [evalMissing]
  rw [hr1]
  cases hp : isDirWalkablePure env cfg c with
  | true => simp only [eq_self_iff_true, if_true, evalMissing]
  | false => simp only [Bool.false_eq_true, if_false]

theorem walkChainS_spec_base (env : Env) (cfg : FilterConfig) (σ : FilterState)
    (h : FullInv env cfg σ) :
    WalkOut env cfg σ cfg.search_base (walkChainS env cfg σ cfg.search_base) := by
  obtain ⟨tl, hac⟩ := ancestorChain_head cfg.search_base
  unfold walkChainS
  rw [hac]
  simp only [collectMissingList]
  cases hw : σ.walkCache cfg.search_base with
  | some b =>
    cases b with
    | true =>
      show WalkOut env cfg σ cfg.search_base (true, σ)
      refine ⟨?_, h, ?_, ?_, ?_, ?_⟩
      · have hx : chainWalkablePure env cfg cfg.search_base = true := by
          rw [chainWalkable_self env cfg cfg.search_base rfl]
          exact (h.walkVal _ _ hw).symm
        exact hx.symm
      · intro _ k hk1 hk2
        have hk : k = cfg.search_base.length := by omega
        subst hk
        rw [List.take_length]
        exact hw
      · intro d hne
        exact absurd rfl hne
      · intro _ d hne
        exact absurd rfl hne
      · intro d hdn hdf
        rw [hdn] at hdf
        exact Option.noConfusion hdf
    | false =>
      show WalkOut env cfg σ cfg.search_base (false, σ)
      refine ⟨?_, h, ?_, ?_, ?_, ?_⟩
      · have hx : chainWalkablePure env cfg cfg.search_base = false := by
          rw [chainWalkable_self env cfg cfg.search_base rfl]
          exact (h.walkVal _ _ hw).symm
        exact hx.symm
      · intro hx
        exact Bool.noConfusion hx
      · intro d hne
        exact absurd rfl hne
      · intro _ d hne
        exact absurd rfl hne
      · intro d hdn hdf
        rw [hdn] at hdf
        exact Option.noConfusion hdf
  | none =>
    show WalkOut env cfg σ cfg.search_base (evalMissing env cfg σ [cfg.search_base])
    rw [evalMissing_single env cfg σ cfg.search_base h]
    obtain ⟨hr1, hr2, hr3⟩ := isDirWalkableUncachedS_spec env cfg σ cfg.search_base h
    have hnone1 : (isDirWalkableUncachedS env cfg σ cfg.search_base).2.walkCache
        cfg.search_base = none := by
      rw [hr3]
      exact hw
    refine ⟨(chainWalkable_self env cfg cfg.search_base rfl).symm, ?_, ?_, ?_, ?_, ?_⟩
    · refine withWalk_inv env cfg _ cfg.search_base hr2 hnone1 ?_
      intro _ k hk1 hk2 hkn
      exfalso
      omega
    · intro hRt k hk1 hk2
      have hk : k = cfg.search_base.length := by omega
      subst hk
      rw [List.take_length, withWalk_walkCache, if_pos rfl]
      simp only at hRt
      rw [hRt]
    · intro d hne
      simp only [withWalk_walkCache] at hne ⊢
      by_cases hdB : d = cfg.search_base
      · subst hdB
        rw [if_pos rfl]
        exact ⟨hw, ⟨cfg.search_base.length, le_refl _, le_refl _,
          (List.take_length cfg.search_base).symm⟩, rfl⟩
      · rw [if_neg hdB] at hne ⊢
        rw [hr3] at hne
        exact absurd rfl hne
    · intro hRt d hne
      simp only at hRt
      simp only [withWalk_walkCache] at hne ⊢
      by_cases hdB : d = cfg.search_base
      · rw [if_pos hdB, hRt]
      · rw [if_neg hdB] at hne ⊢
        rw [hr3] at hne
        exact absurd rfl hne
    · intro d hdn hdf d2 hd2
      simp only [withWalk_walkCache] at hdf ⊢
      by_cases hdB : d = cfg.search_base
      · have hd2B : d2 ≠ cfg.search_base := by
          intro hx
          rw [hx, ← hdB] at hd2
          omega
        rw [if_neg hd2B, hr3]
      · rw [if_neg hdB, hr3] at hdf
        rw [hdf] at hdn
        exact Option.noConfusion hdn

theorem walkChainS_spec (env : Env) (cfg : FilterConfig) : ∀ (n : ℕ) (container : FsPath),
    container.length ≤ n → isBasePrefixOf cfg.search_base container = true →
    ∀ (σ : FilterState), FullInv env cfg σ →
      WalkOut env cfg σ container (walkChainS env cfg σ container) := by
  intro n
  induction n with
  | zero =>
    intro container hlen hpre σ h
    have hc0 : container = [] := List.length_eq_zero.mp (Nat.le_zero.mp hlen)
    have hbase : cfg.search_base = container := by
      refine basePrefix_eq_of_length hpre ?_
      rw [hc0]
      simp
    rw [← hbase]
    exact walkChainS_spec_base env cfg σ h
  | succ n ih =>
    intro container hlen hpre σ h
    by_cases hcb : cfg.search_base = container
    · rw [← hcb]
      exact walkChainS_spec_base env cfg σ h
    · have hblt : cfg.search_base.length < container.length := by
        rcases Nat.lt_or_ge cfg.search_base.length container.length with hx | hx
        · exact hx
        · exact absurd (basePrefix_eq_of_length hpre hx) hcb
      have hcne : container ≠ [] := by
        intro hx
        rw [hx] at hblt
        simp at hblt
      have hdllen : container.dropLast.length = container.length - 1 :=
        List.length_dropLast container
      have hpre2 : isBasePrefixOf cfg.search_base container.dropLast = true := by
        rw [List.dropLast_eq_take]
        exact basePrefix_take _ hpre (by omega)
      have hlen2 : container.dropLast.length ≤ n := by omega
      unfold walkChainS
      rw [ancestorChain_cons container hcne]
      simp only [collectMissingList]
      cases hw : σ.walkCache container with
      | some b =>
        cases b with
        | true =>
          show WalkOut env cfg σ container (true, σ)
          refine ⟨?_, h, ?_, ?_, ?_, ?_⟩
          · have hx : chainWalkablePure env cfg container = true := by
              rw [chainWalkable_iff]
              intro k hk1 hk2
              exact (h.walkVal _ _ (h.walkAnc container hw k hk1 hk2)).symm
            exact hx.symm
          · intro _ k hk1 hk2
            exact h.walkAnc container hw k hk1 hk2
          · intro d hne
            exact absurd rfl hne
          · intro _ d hne
            exact absurd rfl hne
          · intro d hdn hdf
            rw [hdn] at hdf
            exact Option.noConfusion hdf
        | false =>
          show WalkOut env cfg σ container (false, σ)
          refine ⟨?_, h, ?_, ?_, ?_, ?_⟩
          · cases hc : chainWalkablePure env cfg container with
            | false => rfl
            | true =>
              have hx := chainWalkable_top hc (by omega)
              have hy := h.walkVal container false hw
              rw [hx] at hy
              exact Bool.noConfusion hy
          · intro hx
            exact Bool.noConfusion hx
          · intro d hne
            exact absurd rfl hne
          · intro _ d hne
            exact absurd rfl hne
          · intro d hdn hdf
            rw [hdn] at hdf
            exact Option.noConfusion hdf
      | none =>
        rw [if_neg (fun hx => hcb hx.symm)]
        cases hAC : ancestorChain container.dropLast with
        | nil => exact absurd hAC (ancestorChain_ne_nil _)
        | cons a as =>
          have hIH := ih container.dropLast hlen2 hpre2 σ h
          cases hcol : collectMissingList cfg.search_base σ.walkCache (a :: as) with
          | none =>
            have hWc : walkChainS env cfg σ container.dropLast = (false, σ) := by
              unfold walkChainS
              rw [hAC, hcol]
            rw [hWc] at hIH
            obtain ⟨hI1, hI2, hI3, hI4, hI5, hI6⟩ := hIH
            show WalkOut env cfg σ container (false, σ)
            refine ⟨?_, h, ?_, ?_, ?_, ?_⟩
            · rw [chainWalkable_step env cfg container hblt, ← hI1]
              rfl
            · intro hx
              exact Bool.noConfusion hx
            · intro d hne
              exact absurd rfl hne
            · intro _ d hne
              exact absurd rfl hne
            · intro d hdn hdf
              rw [hdn] at hdf
              exact Option.noConfusion hdf
          | some ms =>
            have hWc : walkChainS env cfg σ container.dropLast =
                evalMissing env cfg σ ms.reverse := by
              unfold walkChainS
              rw [hAC, hcol]
            rw [hWc] at hIH
            obtain ⟨hI1, hI2, hI3, hI4, hI5, hI6⟩ := hIH
            show WalkOut env cfg σ container (evalMissing env cfg σ ((container :: ms).reverse))
            rw [List.reverse_cons]
            rw [evalMissing_append env cfg ms.reverse [container] σ]
            cases hW1 : (evalMissing env cfg σ ms.reverse).1 with
            | false =>
              simp only [Bool.false_eq_true, if_false]
              refine ⟨?_, hI2, ?_, ?_, ?_, ?_⟩
              · rw [chainWalkable_step env cfg container hblt, ← hI1, hW1]
                rfl
              · intro hx
                rw [hW1] at hx
                exact Bool.noConfusion hx
              · intro d hne
                obtain ⟨hn0, ⟨k, hk1, hk2, hdk⟩, hval⟩ := hI4 d hne
                exact ⟨hn0, ⟨k, hk1, by omega,
                  hdk.trans (take_dropLast_eq container k (by omega)).symm⟩, hval⟩
              · intro hx
                rw [hW1] at hx
                exact absurd hx (by intro hy; exact Bool.noConfusion hy)
              · exact hI6
            | true =>
              simp only [eq_self_iff_true, if_true]
              rw [evalMissing_single env cfg (evalMissing env cfg σ ms.reverse).2 container hI2]
              obtain ⟨hr1, hr2, hr3⟩ := isDirWalkableUncachedS_spec env cfg
                (evalMissing env cfg σ ms.reverse).2 container hI2
              have hWnc : (evalMissing env cfg σ ms.reverse).2.walkCache container =
                  σ.walkCache container := by
                by_cases hch : (evalMissing env cfg σ ms.reverse).2.walkCache container =
                    σ.walkCache container
                · exact hch
                · obtain ⟨_, ⟨k, hk1, hk2, hdk⟩, _⟩ := hI4 container hch
                  exfalso
                  have hlc := congrArg List.length hdk
                  rw [List.length_take] at hlc
                  omega
              have hWn : (evalMissing env cfg σ ms.reverse).2.walkCache container = none := by
                rw [hWnc, hw]
              have hrn : (isDirWalkableUncachedS env cfg
                  (evalMissing env cfg σ ms.reverse).2 container).2.walkCache container =
                  none := by
                rw [hr3]
                exact hWn
              refine ⟨?_, ?_, ?_, ?_, ?_, ?_⟩
              · rw [chainWalkable_step env cfg container hblt, ← hI1, hW1]
                rfl
              · refine withWalk_inv env cfg _ container hr2 hrn ?_
                intro _ k hk1 hk2 hkn
                rw [hr3, take_dropLast_eq container k (by omega)]
                exact hI3 hW1 k hk1 (by omega)
              · intro hRt k hk1 hk2
                simp only at hRt
                by_cases hkn : k = container.length
                · subst hkn
                  rw [List.take_length, withWalk_walkCache, if_pos rfl, hRt]
                · have hne2 : container.take k ≠ container := by
                    intro hx
                    have hlc := congrArg List.length hx
                    rw [List.length_take] at hlc
                    omega
                  rw [withWalk_walkCache, if_neg hne2, hr3,
                    take_dropLast_eq container k (by omega)]
                  exact hI3 hW1 k hk1 (by omega)
              · intro d hne
                by_cases hdc : d = container
                · subst hdc
                  refine ⟨hw, ⟨d.length, by omega, le_refl _, (List.take_length d).symm⟩, ?_⟩
                  rw [withWalk_walkCache, if_pos rfl]
                · have hdd : (withWalk (isDirWalkableUncachedS env cfg
                      (evalMissing env cfg σ ms.reverse).2 container).2 container
                      (isDirWalkablePure env cfg container)).walkCache d =
                      (evalMissing env cfg σ ms.reverse).2.walkCache d := by
                    rw [withWalk_walkCache, if_neg hdc, hr3]
                  rw [hdd] at hne ⊢
                  obtain ⟨hn0, ⟨k, hk1, hk2, hdk⟩, hval⟩ := hI4 d hne
                  exact ⟨hn0, ⟨k, hk1, by omega,
                    hdk.trans (take_dropLast_eq container k (by omega)).symm⟩, hval⟩
              · intro hRt d hne
                simp only at hRt
                by_cases hdc : d = container
                · subst hdc
                  rw [withWalk_walkCache, if_pos rfl, hRt]
                · have hdd : (withWalk (isDirWalkableUncachedS env cfg
                      (evalMissing env cfg σ ms.reverse).2 container).2 container
                      (isDirWalkablePure env cfg container)).walkCache d =
                      (evalMissing env cfg σ ms.reverse).2.walkCache d := by
                    rw [withWalk_walkCache, if_neg hdc, hr3]
                  rw [hdd] at hne ⊢
                  exact hI5 hW1 d hne
              · intro d hdn hdf d2 hd2
                by_cases hdc : d = container
                · subst hdc
                  have hd2c : d2 ≠ d := by
                    intro hx
                    rw [hx] at hd2
                    omega
                  rw [withWalk_walkCache, if_neg hd2c, hr3]
                  by_cases hch : (evalMissing env cfg σ ms.reverse).2.walkCache d2 =
                      σ.walkCache d2
                  · exact hch
                  · obtain ⟨_, ⟨k, hk1, hk2, hdk⟩, _⟩ := hI4 d2 hch
                    exfalso
                    have hlc := congrArg List.length hdk
                    rw [List.length_take] at hlc
                    omega
                · have hdd : (withWalk (isDirWalkableUncachedS env cfg
                      (evalMissing env cfg σ ms.reverse).2 container).2 container
                      (isDirWalkablePure env cfg container)).walkCache d =
                      (evalMissing env cfg σ ms.reverse).2.walkCache d := by
                    rw [withWalk_walkCache, if_neg hdc, hr3]
                  rw [hdd] at hdf
                  have hne2 : (evalMissing env cfg σ ms.reverse).2.walkCache d ≠
                      σ.walkCache d := by
                    rw [hdf, hdn]
                    intro hx
                    exact Option.noConfusion hx
                  have hx := hI5 hW1 d hne2
                  rw [hx] at hdf
                  injection hdf with hdf
                  exact Bool.noConfusion hdf

theorem isWalkableToS_spec (env : Env) (cfg : FilterConfig) (σ : FilterState) (path : FsPath)
    (isDir : Bool) (h : FullInv env cfg σ) :
    (isWalkableToS env cfg σ path isDir).1 = isWalkableToPure env cfg path isDir ∧
    FullInv env cfg (isWalkableToS env cfg σ path isDir).2 ∧
    (∀ d, σ.walkCache d = none →
      (isWalkableToS env cfg σ path isDir).2.walkCache d = some false →
      ∀ d2, d.length < d2.length →
        (isWalkableToS env cfg σ path isDir).2.walkCache d2 = σ.walkCache d2) := by
  rw [isWalkableToS_eq]
  unfold isWalkableToPure
  by_cases hbc : isBasePrefixOf cfg.search_base (if isDir then path else parentOr path) = true
  · rw [if_pos hbc, if_pos hbc]
    obtain ⟨h1, h2, _, _, _, h6⟩ := walkChainS_spec env cfg
      (if isDir then path else parentOr path).length (if isDir then path else parentOr path)
      (le_refl _) hbc σ h
    exact ⟨h1, h2, h6⟩
  · rw [if_neg hbc, if_neg hbc]
    refine ⟨rfl, h, ?_⟩
    intro d hdn hdf
    rw [hdn] at hdf
    exact Option.noConfusion hdf

theorem shouldIncludeS_spec (env : Env) (cfg : FilterConfig) (σ : FilterState) (path : FsPath)
    (h : FullInv env cfg σ) :
    (shouldIncludeS env cfg σ path).1 = shouldIncludePure env cfg path ∧
    FullInv env cfg (shouldIncludeS env cfg σ path).2 ∧
    (∀ d, σ.walkCache d = none →
      (shouldIncludeS env cfg σ path).2.walkCache d = some false →
      ∀ d2, d.length < d2.length →
        (shouldIncludeS env cfg σ path).2.walkCache d2 = σ.walkCache d2) := by
  unfold shouldIncludeS shouldIncludePure shouldIncludeWith
  by_cases hh : (!cfg.include_hidden && is_hidden_under_base path cfg.search_base) = true
  · rw [if_pos hh, if_pos hh]
    refine ⟨rfl, h, ?_⟩
    intro d hdn hdf
    rw [hdn] at hdf
    exact Option.noConfusion hdf
  · rw [if_neg hh, if_neg hh]
    obtain ⟨hw1, hw2, hw3⟩ := isWalkableToS_spec env cfg σ path
      ((env.statIsDir path).getD false) h
    dsimp only
    rw [hw1]
    cases hwp : isWalkableToPure env cfg path ((env.statIsDir path).getD false) with
    | false =>
      simp only [Bool.not_false, eq_self_iff_true, if_true]
      exact ⟨trivial, hw2, hw3⟩
    | true =>
      simp only [Bool.not_true, Bool.false_eq_true, if_false]
      by_cases hie : (!cfg.ignore_enabled) = true
      · rw [if_pos hie, if_pos hie]
        exact ⟨rfl, hw2, hw3⟩
      · rw [if_neg hie, if_neg hie]
        obtain ⟨he1, he2, he3⟩ := isEntryIncludedS_spec env cfg
          (isWalkableToS env cfg σ path ((env.statIsDir path).getD false)).2 path
          ((env.statIsDir path).getD false) (parentOr path) hw2
        refine ⟨he1, he2, ?_⟩
        intro d hdn hdf d2 hd2
        rw [he3] at hdf ⊢
        exact hw3 d hdn hdf d2 hd2

theorem runAll_spec (env : Env) (cfg : FilterConfig) : ∀ (ps : List FsPath) (σ : FilterState),
    FullInv env cfg σ →
    (runAll env cfg σ ps).1 = ps.map (shouldIncludePure env cfg) ∧
    FullInv env cfg (runAll env cfg σ ps).2 := by
  intro ps
  induction ps with
  | nil =>
    intro σ h
    exact ⟨rfl, h⟩
  | cons p ps ih =>
    intro σ h
    obtain ⟨h1, h2, _⟩ := shouldIncludeS_spec env cfg σ p h
    obtain ⟨ih1, ih2⟩ := ih (shouldIncludeS env cfg σ p).2 h2
    simp only [runAll, List.map_cons]
    exact ⟨by rw [h1, ih1], ih2⟩

/-! ### Claim C4 -/

/-- C4: cache transparency.  Starting from a fresh `Filter`, the
decision for every candidate equals the pure (cache-free) denotation of
`should_include` on that candidate alone.  Hence the decisions for any
permutation of an input multiset are pointwise identical to the
decisions with all caches cleared between calls, and calling
`should_include` twice on the same path yields the same answer (shown
explicitly by the second conjunct). -/
theorem cache_transparency (env : Env) (cfg : FilterConfig) (ps : List FsPath) (p : FsPath) :
    (runAll env cfg initState ps).1 = ps.map (shouldIncludePure env cfg) ∧
    (runAll env cfg initState [p, p]).1 =
      [shouldIncludePure env cfg p, shouldIncludePure env cfg p] :=
  ⟨(runAll_spec env cfg ps initState (initState_inv env cfg)).1,
    (runAll_spec env cfg [p, p] initState (initState_inv env cfg)).1⟩

/-! ### Claim C5 -/

/-- C5: WalkableCache invariant.  After a call to the decision engine
from any state satisfying the cache invariant (in particular any state
reachable from a fresh `Filter`), every positive WalkableCache entry has
all its ancestors up to and including the search base cached positive
(population happens root-to-leaf), and when a directory evaluated as not
walkable in this call, no directory deeper than the failing one was
cached by the call. -/
theorem walkable_cache_invariant (env : Env) (cfg : FilterConfig) (σ : FilterState)
    (p : FsPath) (h : FullInv env cfg σ) :
    (∀ d, (shouldIncludeS env cfg σ p).2.walkCache d = some true →
      ∀ k, cfg.search_base.length ≤ k → k ≤ d.length →
        (shouldIncludeS env cfg σ p).2.walkCache (d.take k) = some true) ∧
    (∀ d, σ.walkCache d = none →
      (shouldIncludeS env cfg σ p).2.walkCache d = some false →
      ∀ d2, d.length < d2.length →
        (shouldIncludeS env cfg σ p).2.walkCache d2 = σ.walkCache d2) := by
  obtain ⟨_, h2, h3⟩ := shouldIncludeS_spec env cfg σ p h
  exact ⟨h2.walkAnc, h3⟩

/-- A matcher that ignores exactly the directory with single component
byte `97`. -/
def igDirA : IgMatcher :=
  fun p isDir => if p = [[97]] ∧ isDir = true then some IgnoreDecision.Ignore else none

/-- Environment with a single `.fdignore` in the root ignoring the
directory `a`. -/
def envIgnoreA : Env :=
  ⟨fun _ => some false,
   fun q => decide (q = [fdignoreName]),
   fun dir fname => if dir = ([] : FsPath) ∧ fname = fdignoreName then some igDirA else none,
   fun _ => none,
   fun _ _ => none,
   none⟩

theorem walkable_cache_invariant_witness :
    initState.walkCache [[97]] = none ∧
    (shouldIncludeS envIgnoreA cfgDefault initState [[97], [98], [99]]).2.walkCache [[97]] =
      some false ∧
    ([[97]] : FsPath).length < ([[97], [98]] : FsPath).length ∧
    (shouldIncludeS envIgnoreA cfgDefault initState [[97], [98], [99]]).2.walkCache
      [[97], [98]] = initState.walkCache [[97], [98]] :=
  ⟨rfl, by decide, by decide,
    (walkable_cache_invariant envIgnoreA cfgDefault initState [[97], [98], [99]]
      (initState_inv envIgnoreA cfgDefault)).2 [[97]] rfl (by decide) [[97], [98]] (by decide)⟩
